import Mathlib

/-! # Physical page allocator with per-frame reference counts (`kernel/kalloc.c`)

A shallow embedding of `kalloc.c`: the free list is the intrusive singly linked
list of the source (the link of a free frame is stored in the first eight bytes
of the frame itself), the reference table is `ref_lock.page_refcount`, and every
function of the file is a Lean function on an explicit machine state.

Machine integers are natural numbers with explicit reduction modulo `2^32`
(`uint`, `int`) or `2^64` (`uint64`, pointers).
-/

namespace Kalloc

/-! ## Constants and layout -/

/-- The page size `PGSIZE` of `riscv.h`: a frame has 4096 bytes. -/
def PGSIZE : Nat := 4096

/-- The constants of `memlayout.h` and the linker symbol `end` that `kalloc.c`
uses but does not define. They are parameters of the embedding. -/
structure Layout where
  /-- `KERNBASE`: first address of the range covered by the reference table. -/
  KERNBASE : Nat
  /-- `PHYSTOP`: first address after physical memory. -/
  PHYSTOP : Nat
  /-- `end`: first address after the kernel image (defined by `kernel.ld`). -/
  kend : Nat
deriving DecidableEq, Repr

/-- The side conditions on the layout constants under which the C arithmetic of
the file does not overflow: the kernel image lies inside `[KERNBASE, PHYSTOP]`,
both bounds are page-aligned, null is not a managed address, pointers fit in 64
bits and a frame index fits in a (32-bit) `int`. -/
def Layout.WF (L : Layout) : Prop :=
  0 < L.KERNBASE ∧ L.KERNBASE ≤ L.kend ∧ L.kend ≤ L.PHYSTOP ∧
  L.PHYSTOP + PGSIZE ≤ 2 ^ 64 ∧
  L.KERNBASE % PGSIZE = 0 ∧ L.PHYSTOP % PGSIZE = 0 ∧
  (L.PHYSTOP - L.KERNBASE) / PGSIZE < 2 ^ 31

instance (L : Layout) : Decidable L.WF := by
  unfold Layout.WF; exact inferInstance

/-- The macro `MAX_PAGES`: `((PHYSTOP - KERNBASE) / PGSIZE)`. -/
def MAX_PAGES (L : Layout) : Nat := (L.PHYSTOP - L.KERNBASE) / PGSIZE

/-- The values of xv6-riscv (`KERNBASE = 0x80000000`, 128 MiB of RAM) with a
kernel image that ends inside the frame at `0x80021000`. -/
def xv6 : Layout := { KERNBASE := 0x80000000, PHYSTOP := 0x88000000, kend := 0x80021d60 }

/-! ## Machine arithmetic -/

/-- Conversion of an unsigned value to the 32-bit `int` (two's complement). -/
def toInt32 (n : Nat) : Int :=
  if n % 2 ^ 32 < 2 ^ 31 then ((n % 2 ^ 32 : Nat) : Int) else ((n % 2 ^ 32 : Nat) : Int) - 2 ^ 32

/-- Subtraction of `uint64` values. -/
def u64sub (a b : Nat) : Nat := (a % 2 ^ 64 + 2 ^ 64 - b % 2 ^ 64) % 2 ^ 64

/-- The effect of `++` on a `uint`. -/
def u32inc (v : Nat) : Nat := (v + 1) % 2 ^ 32

/-- The effect of `--` and of `-= 1` on a `uint`. -/
def u32dec (v : Nat) : Nat := (v % 2 ^ 32 + 2 ^ 32 - 1) % 2 ^ 32

/-- The macro `PGROUNDUP` of `riscv.h`: `(sz + PGSIZE - 1) & ~(PGSIZE - 1)` on `uint64`. -/
def PGROUNDUP (sz : Nat) : Nat := ((sz + PGSIZE - 1) % 2 ^ 64) / PGSIZE * PGSIZE

/-! ## State -/

/-- The two spinlocks of the file. -/
inductive Lock where
  | kmem
  | ref_lock
deriving DecidableEq, Repr

/-- A call of `initlock`, `acquire` or `release` on one of the locks. -/
inductive LockEvent where
  | init (l : Lock)
  | acquire (l : Lock)
  | release (l : Lock)
deriving DecidableEq, Repr

/-- The state the file works on: the head `kmem.freelist` of the free list
(`0` is the null pointer), the bytes of memory, the array
`ref_lock.page_refcount`, and the lock calls made so far (oldest first). -/
structure State where
  freelist : Nat
  mem : Nat → Nat
  page_refcount : Nat → Nat
  events : List LockEvent

/-- How a call ends: it returns a value, it halts in `panic` with a message, or
it indexes `page_refcount` outside `[0, MAX_PAGES)`, which C leaves undefined;
in that case the result keeps the index and the state at the access. -/
inductive Result (α : Type) where
  | ok (val : α) (s : State)
  | panic (msg : String) (s : State)
  | fault (index : Int) (s : State)

/-- Modelled from the spec: `initlock` of `spinlock.c`, which only prepares the
lock; the call is recorded. -/
def initlock (l : Lock) (s : State) : State :=
  { s with events := s.events ++ [LockEvent.init l] }

/-- Modelled from the spec: `acquire` of `spinlock.c`; in a single thread of
control it takes the lock at once, and the call is recorded. -/
def acquire (l : Lock) (s : State) : State :=
  { s with events := s.events ++ [LockEvent.acquire l] }

/-- Modelled from the spec: `release` of `spinlock.c`; the call is recorded. -/
def release (l : Lock) (s : State) : State :=
  { s with events := s.events ++ [LockEvent.release l] }

/-- Modelled from the spec: `memset(dst, c, n)` of `string.c`, the overwriting
of the frame with a fixed byte: `n` bytes from `dst` become `c`. -/
def memset (mem : Nat → Nat) (dst c n : Nat) : Nat → Nat :=
  fun a => if dst ≤ a ∧ a < dst + n then c % 256 else mem a

/-- Store of a 64-bit pointer at address `p` (little-endian, as on RISC-V). -/
def store64 (mem : Nat → Nat) (p v : Nat) : Nat → Nat :=
  fun a => if p ≤ a ∧ a < p + 8 then (v / 256 ^ (a - p)) % 256 else mem a

/-- Load of a 64-bit pointer from address `p` (little-endian). -/
def load64 (mem : Nat → Nat) (p : Nat) : Nat :=
  mem p % 256 + (mem (p + 1) % 256) * 256 ^ 1 + (mem (p + 2) % 256) * 256 ^ 2 +
  (mem (p + 3) % 256) * 256 ^ 3 + (mem (p + 4) % 256) * 256 ^ 4 +
  (mem (p + 5) % 256) * 256 ^ 5 + (mem (p + 6) % 256) * 256 ^ 6 +
  (mem (p + 7) % 256) * 256 ^ 7

/-- Assignment to one element of `page_refcount`. -/
def setCount (f : Nat → Nat) (i v : Nat) : Nat → Nat :=
  fun j => if j = i then v else f j

/-- Whether an `int` is a valid index of `page_refcount[MAX_PAGES]`. -/
def inTable (L : Layout) (index : Int) : Prop := 0 ≤ index ∧ index < (MAX_PAGES L : Int)

instance (L : Layout) (index : Int) : Decidable (inTable L index) := by
  unfold inTable; exact inferInstance

/-! ## The functions of `kalloc.c` -/

/-- `pa_index`: the index of the frame of `pa`, or `-1` outside
`[KERNBASE, PHYSTOP)`. Under the guard the `uint64` subtraction is exact; the
quotient is converted to the `int` return type. -/
def pa_index (L : Layout) (pa : Nat) : Int :=
  if pa < L.KERNBASE ∨ pa ≥ L.PHYSTOP then -1
  else toInt32 ((pa - L.KERNBASE) / PGSIZE)

/-- `kfree`: the count is read (and, above 1, decremented, ending the call)
before the address is validated; otherwise the frame is filled with the byte
1, its count is cleared and it is linked in front of the free list. -/
def kfree (L : Layout) (pa : Nat) (s : State) : Result Unit :=
  let index := pa_index L pa
  let s1 := acquire Lock.ref_lock s
  if ¬ inTable L index then Result.fault index s1
  else if s1.page_refcount index.toNat > 1 then
    let s2 := { s1 with
      page_refcount := setCount s1.page_refcount index.toNat (u32dec (s1.page_refcount index.toNat)) }
    Result.ok () (release Lock.ref_lock s2)
  else if pa % PGSIZE ≠ 0 ∨ pa < L.kend ∨ pa ≥ L.PHYSTOP then
    Result.panic "kfree" s1
  else
    let s2 := { s1 with mem := memset s1.mem pa 1 PGSIZE }
    let s3 := { s2 with page_refcount := setCount s2.page_refcount index.toNat 0 }
    let s4 := release Lock.ref_lock s3
    let s5 := acquire Lock.kmem s4
    let s6 := { s5 with mem := store64 s5.mem pa s5.freelist }
    let s7 := { s6 with freelist := pa }
    Result.ok () (release Lock.kmem s7)

/-- `kalloc`: unlinks the head of the free list, if any, and sets its count to
1; the index is computed without `pa_index`, by `uint64` arithmetic converted
to `int`. Returns the frame, or `0`. -/
def kalloc (L : Layout) (s : State) : Result Nat :=
  let s1 := acquire Lock.kmem s
  let r := s1.freelist
  let s2 := if r ≠ 0 then { s1 with freelist := load64 s1.mem r } else s1
  let s3 := release Lock.kmem s2
  if r ≠ 0 then
    let index := toInt32 (u64sub r L.KERNBASE / PGSIZE)
    let s4 := acquire Lock.ref_lock s3
    if ¬ inTable L index then Result.fault index s4
    else
      let s5 := { s4 with page_refcount := setCount s4.page_refcount index.toNat 1 }
      Result.ok r (release Lock.ref_lock s5)
  else Result.ok r s3

/-- `add_ref`: nothing outside `[KERNBASE, PHYSTOP)`, otherwise `++` on the count. -/
def add_ref (L : Layout) (pa : Nat) (s : State) : Result Unit :=
  let index := pa_index L pa
  if index = -1 then Result.ok () s
  else
    let s1 := acquire Lock.ref_lock s
    if ¬ inTable L index then Result.fault index s1
    else
      let s2 := { s1 with
        page_refcount := setCount s1.page_refcount index.toNat (u32inc (s1.page_refcount index.toNat)) }
      Result.ok () (release Lock.ref_lock s2)

/-- `dec_ref`: nothing outside `[KERNBASE, PHYSTOP)`, otherwise `--` on the
count; when the new count, read as an `int`, is 0 the frame goes to `kfree`. -/
def dec_ref (L : Layout) (pa : Nat) (s : State) : Result Unit :=
  let index := pa_index L pa
  if index = -1 then Result.ok () s
  else
    let s1 := acquire Lock.ref_lock s
    if ¬ inTable L index then Result.fault index s1
    else
      let s2 := { s1 with
        page_refcount := setCount s1.page_refcount index.toNat (u32dec (s1.page_refcount index.toNat)) }
      let current_count := toInt32 (s2.page_refcount index.toNat)
      let s3 := release Lock.ref_lock s2
      if current_count = 0 then kfree L pa s3
      else Result.ok () s3

/-- The loop of `freerange`: `for(; p + PGSIZE <= pa_end; p += PGSIZE) kfree(p);`.
A call of `kfree` that does not return ends the loop with its result. -/
def freerangeLoop (L : Layout) (pa_end : Nat) (p : Nat) (s : State) : Result Unit :=
  if p + PGSIZE ≤ pa_end then
    match kfree L p s with
    | Result.ok _ s' => freerangeLoop L pa_end (p + PGSIZE) s'
    | Result.panic msg s' => Result.panic msg s'
    | Result.fault i s' => Result.fault i s'
  else Result.ok () s
termination_by pa_end - p
decreasing_by
  simp only [PGSIZE] at *
  omega

/-- `freerange`: releases every whole frame of `[PGROUNDUP(pa_start), pa_end)`. -/
def freerange (L : Layout) (pa_start pa_end : Nat) (s : State) : Result Unit :=
  freerangeLoop L pa_end (PGROUNDUP pa_start) s

/-- `kinit`: prepares both locks and releases the frames of `[end, PHYSTOP)`. -/
def kinit (L : Layout) (s : State) : Result Unit :=
  let s1 := initlock Lock.ref_lock s
  let s2 := initlock Lock.kmem s1
  freerange L L.kend L.PHYSTOP s2

/-! ## Abstraction of the free list -/

/-- The frames that `kfree` accepts for the free list: page-aligned addresses of
`[end, PHYSTOP)`. -/
def isFrame (L : Layout) (pa : Nat) : Prop :=
  pa % PGSIZE = 0 ∧ L.kend ≤ pa ∧ pa < L.PHYSTOP

instance (L : Layout) (pa : Nat) : Decidable (isFrame L pa) := by
  unfold isFrame; exact inferInstance

/-- The free list starting at pointer `h` in memory `mem` is the sequence `l` of
frames: `h` is null for the empty sequence; otherwise `h` is the first frame and
the pointer stored in that frame starts the rest. -/
def FreeList (L : Layout) (mem : Nat → Nat) : Nat → List Nat → Prop
  | h, [] => h = 0
  | h, F :: t => h = F ∧ F ≠ 0 ∧ isFrame L F ∧ FreeList L mem (load64 mem F) t

/-- The index of the frame of `pa` in `page_refcount`, for `pa ≥ KERNBASE`. -/
def frameIndex (L : Layout) (pa : Nat) : Nat := (pa - L.KERNBASE) / PGSIZE

/-- The reference count of the frame of `pa`. -/
def countOf (L : Layout) (s : State) (pa : Nat) : Nat := s.page_refcount (frameIndex L pa)

/-- The state of `dec_ref` after its own critical section. -/
def decremented (L : Layout) (s : State) (pa : Nat) : State :=
  { s with
    page_refcount := setCount s.page_refcount (frameIndex L pa) (u32dec (countOf L s pa)),
    events := s.events ++ [LockEvent.acquire Lock.ref_lock, LockEvent.release Lock.ref_lock] }


instance FreeList.instDecidable (L : Layout) (mem : Nat → Nat) :
    ∀ (hd : Nat) (l : List Nat), Decidable (FreeList L mem hd l)
  | hd, [] => inferInstanceAs (Decidable (hd = 0))
  | hd, F :: t =>
    have := FreeList.instDecidable L mem (load64 mem F) t
    inferInstanceAs (Decidable (hd = F ∧ F ≠ 0 ∧ isFrame L F ∧ FreeList L mem (load64 mem F) t))

/-- The state at boot: `kmem` and `ref_lock` are zero-initialised globals, the
contents of memory are whatever they are. -/
def boot (mem : Nat → Nat) : State :=
  { freelist := 0, mem := mem, page_refcount := fun _ => 0, events := [] }

/-! ## Concrete states on the xv6 layout -/

/-- The last frame of physical memory in the xv6 layout. -/
def frameA : Nat := 0x87fff000

/-- The frame below `frameA`. -/
def frameB : Nat := 0x87ffe000

/-- Both frames free, `frameA` in front; all counts 0. -/
def twoFree : State :=
  { freelist := frameA,
    mem := store64 (store64 (fun _ => 0) frameB 0) frameA frameB,
    page_refcount := fun _ => 0,
    events := [] }

/-- The state `twoFree` after `frameA` was allocated and shared once more
(`kalloc`, `add_ref`): `frameB` is free, `frameA` has count 2. -/
def sharedA : State :=
  { freelist := frameB,
    mem := store64 (store64 (fun _ => 0) frameB 0) frameA frameB,
    page_refcount := fun i => if i = frameIndex xv6 frameA then 2 else 0,
    events := [] }

/-- Only `frameA` is free, with count 0: the boot state after `kfree(frameA)`. -/
def oneFree : State :=
  { freelist := frameA,
    mem := store64 (memset (fun _ => 0) frameA 1 PGSIZE) frameA 0,
    page_refcount := fun _ => 0,
    events := [] }

/-- The state `twoFree` after `kalloc`: `frameB` is free, `frameA` has count 1. -/
def ownedA : State :=
  { freelist := frameB,
    mem := store64 (store64 (fun _ => 0) frameB 0) frameA frameB,
    page_refcount := fun i => if i = frameIndex xv6 frameA then 1 else 0,
    events := [] }

/-- The state `oneFree` after `add_ref(frameA)`: `frameA` is in the free list and
has count 1. -/
def freeCounted : State :=
  { freelist := frameA,
    mem := store64 (memset (fun _ => 0) frameA 1 PGSIZE) frameA 0,
    page_refcount := fun i => if i = frameIndex xv6 frameA then 1 else 0,
    events := [] }

/-! ## Seeded frames and reachable states -/

/-- The `n` addresses `p`, `p + PGSIZE`, ... that the loop of `freerange` visits. -/
def framesFrom : Nat → Nat → List Nat
  | _, 0 => []
  | p, n + 1 => p :: framesFrom (p + PGSIZE) n

/-- The frames that `kinit` passes to `kfree`: `p = PGROUNDUP(end) + 4096 k` with
`p + 4096 ≤ PHYSTOP`, in the order of the loop. -/
def seeded (L : Layout) : List Nat :=
  framesFrom (PGROUNDUP L.kend) ((L.PHYSTOP - PGROUNDUP L.kend) / PGSIZE)

/-- The states reached from `kinit` (run on the boot state) by calls that return,
where `kfree`, `add_ref` and `dec_ref` are applied only to page-aligned
addresses that an earlier `kalloc` returned and whose count is at least 1, and
`add_ref` never brings a count to `2^32 - 1`. The list collects the addresses
returned by `kalloc` so far. -/
inductive Reach (L : Layout) : State → List Nat → Prop where
  | init (mem0 : Nat → Nat) (s : State) :
      kinit L (boot mem0) = Result.ok () s → Reach L s []
  | kalloc (s s' : State) (R : List Nat) (r : Nat) :
      Reach L s R → kalloc L s = Result.ok r s' → Reach L s' (if r = 0 then R else r :: R)
  | kfree (s s' : State) (R : List Nat) (pa : Nat) :
      Reach L s R → pa ∈ R → pa % PGSIZE = 0 → 1 ≤ countOf L s pa →
      kfree L pa s = Result.ok () s' → Reach L s' R
  | add_ref (s s' : State) (R : List Nat) (pa : Nat) :
      Reach L s R → pa ∈ R → pa % PGSIZE = 0 → 1 ≤ countOf L s pa →
      countOf L s pa + 1 < 2 ^ 32 - 1 →
      add_ref L pa s = Result.ok () s' → Reach L s' R
  | dec_ref (s s' : State) (R : List Nat) (pa : Nat) :
      Reach L s R → pa ∈ R → pa % PGSIZE = 0 → 1 ≤ countOf L s pa →
      dec_ref L pa s = Result.ok () s' → Reach L s' R

/-- The invariant of the reachable states, for the free list `l` and the
addresses `R` that `kalloc` has returned: the frames of `l` have count 0, every
other frame of `[end, PHYSTOP)` has a count of at least 1, no counter is
`2^32 - 1` or more, the returned addresses are frames, and the counters that
belong to no frame of `[end, PHYSTOP)` are 0. -/
structure Inv (L : Layout) (s : State) (R l : List Nat) : Prop where
  list : FreeList L s.mem s.freelist l
  free_zero : ∀ F ∈ l, countOf L s F = 0
  used_pos : ∀ F, isFrame L F → F ∉ l → 1 ≤ countOf L s F
  bound : ∀ i, s.page_refcount i < 2 ^ 32 - 1
  returned : ∀ pa ∈ R, isFrame L pa
  others_zero : ∀ i, (∀ F, isFrame L F → frameIndex L F ≠ i) → s.page_refcount i = 0

/-- Calls of `kfree` on the addresses of a list, one after the other; a call
that does not return ends the sequence with its result. -/
def kfreeEach (L : Layout) : List Nat → State → Result Unit
  | [], s => Result.ok () s
  | p :: ps, s =>
    match kfree L p s with
    | Result.ok _ s' => kfreeEach L ps s'
    | Result.panic msg s' => Result.panic msg s'
    | Result.fault i s' => Result.fault i s'

/-- Successive calls of `kalloc`, `n` of them, with the values they return in
the order of the calls; a call that does not return ends the sequence. -/
def kallocs (L : Layout) : Nat → State → Result (List Nat)
  | 0, s => Result.ok [] s
  | n + 1, s =>
    match kalloc L s with
    | Result.ok r s' =>
      match kallocs L n s' with
      | Result.ok rs s'' => Result.ok (r :: rs) s''
      | Result.panic msg s'' => Result.panic msg s''
      | Result.fault i s' => Result.fault i s'
    | Result.panic msg s' => Result.panic msg s'
    | Result.fault i s' => Result.fault i s'

/-! ## Lock discipline of a sequence of lock calls -/

/-- The locks held after one lock call: `acquire` adds the lock to the held
ones, `release` removes it, `initlock` changes nothing. -/
def lockStep (held : List Lock) : LockEvent → List Lock
  | LockEvent.init _ => held
  | LockEvent.acquire l => l :: held
  | LockEvent.release l => held.erase l

/-- The locks held after a sequence of lock calls. -/
def heldAfter : List Lock → List LockEvent → List Lock
  | held, [] => held
  | held, e :: es => heldAfter (lockStep held e) es

/-- At no point of the sequence are `kmem.lock` and `ref_lock.lock` both held. -/
def neverBoth : List Lock → List LockEvent → Bool
  | held, [] => !(held.contains Lock.kmem && held.contains Lock.ref_lock)
  | held, e :: es =>
    !(held.contains Lock.kmem && held.contains Lock.ref_lock) && neverBoth (lockStep held e) es

/-- No `acquire` of the sequence is on a lock that is held at that point. -/
def noReacquire : List Lock → List LockEvent → Bool
  | _, [] => true
  | held, LockEvent.acquire l :: es => !held.contains l && noReacquire (l :: held) es
  | held, e :: es => noReacquire (lockStep held e) es

/-- The lock calls `es` that a call added to the log of `s`, for a call that
ended as `r`: from no lock held they never hold both locks, never acquire a
held lock, and, when the call returns, leave no lock held. For a call that
ended by indexing outside the table, `es` are the lock calls up to that access. -/
def DisciplinedCall {α : Type} (s : State) (r : Result α) : Prop :=
  match r with
  | Result.ok _ s' =>
    ∃ es, s'.events = s.events ++ es ∧ neverBoth [] es = true ∧ noReacquire [] es = true ∧
      heldAfter [] es = []
  | Result.panic _ s' =>
    ∃ es, s'.events = s.events ++ es ∧ neverBoth [] es = true ∧ noReacquire [] es = true
  | Result.fault _ s' =>
    ∃ es, s'.events = s.events ++ es ∧ neverBoth [] es = true ∧ noReacquire [] es = true

/-! ## Arithmetic and memory lemmas -/

theorem toInt32_small (n : Nat) (h : n < 2 ^ 31) : toInt32 n = (n : Int) := by
  unfold toInt32
  have h1 : n % 2 ^ 32 = n := Nat.mod_eq_of_lt (by omega)
  rw [h1, if_pos h]

theorem toInt32_eq_zero_iff (n : Nat) (h : n < 2 ^ 32) : toInt32 n = 0 ↔ n = 0 := by
  unfold toInt32
  have h1 : n % 2 ^ 32 = n := Nat.mod_eq_of_lt h
  rw [h1]
  split <;> omega

theorem load64_store64 (mem : Nat → Nat) (p v : Nat) (hv : v < 2 ^ 64) :
    load64 (store64 mem p v) p = v := by
  simp [load64, store64]
  omega

theorem load64_congr (mem mem' : Nat → Nat) (p : Nat)
    (h : ∀ a, p ≤ a → a < p + 8 → mem' a = mem a) : load64 mem' p = load64 mem p := by
  unfold load64
  rw [h p (by omega) (by omega), h (p + 1) (by omega) (by omega), h (p + 2) (by omega) (by omega),
    h (p + 3) (by omega) (by omega), h (p + 4) (by omega) (by omega),
    h (p + 5) (by omega) (by omega), h (p + 6) (by omega) (by omega),
    h (p + 7) (by omega) (by omega)]

theorem load64_lt (mem : Nat → Nat) (p : Nat) : load64 mem p < 2 ^ 64 := by
  unfold load64
  omega

theorem frameIndex_lt (L : Layout) (hL : L.WF) (pa : Nat)
    (h1 : L.KERNBASE ≤ pa) (h2 : pa < L.PHYSTOP) :
    frameIndex L pa < MAX_PAGES L := by
  obtain ⟨_, _, _, _, hK, hP, _⟩ := hL
  unfold frameIndex MAX_PAGES
  simp only [PGSIZE] at *
  omega

theorem pa_index_in_range (L : Layout) (hL : L.WF) (pa : Nat)
    (h1 : L.KERNBASE ≤ pa) (h2 : pa < L.PHYSTOP) :
    pa_index L pa = (frameIndex L pa : Int) := by
  have hlt := frameIndex_lt L hL pa h1 h2
  obtain ⟨_, _, _, _, _, _, hM⟩ := hL
  unfold pa_index
  rw [if_neg (by omega)]
  apply toInt32_small
  unfold frameIndex MAX_PAGES at *
  simp only [PGSIZE] at *
  omega

theorem pa_index_out_of_range (L : Layout) (pa : Nat)
    (h : pa < L.KERNBASE ∨ L.PHYSTOP ≤ pa) : pa_index L pa = -1 := by
  unfold pa_index
  rw [if_pos h]

theorem pa_index_ne_neg_one (L : Layout) (hL : L.WF) (pa : Nat)
    (h1 : L.KERNBASE ≤ pa) (h2 : pa < L.PHYSTOP) : pa_index L pa ≠ -1 := by
  rw [pa_index_in_range L hL pa h1 h2]
  omega

theorem inTable_frameIndex (L : Layout) (hL : L.WF) (pa : Nat)
    (h1 : L.KERNBASE ≤ pa) (h2 : pa < L.PHYSTOP) :
    inTable L (frameIndex L pa : Int) := by
  have hlt := frameIndex_lt L hL pa h1 h2
  unfold inTable
  omega

theorem kalloc_index (L : Layout) (hL : L.WF) (F : Nat)
    (h1 : L.KERNBASE ≤ F) (h2 : F < L.PHYSTOP) :
    toInt32 (u64sub F L.KERNBASE / PGSIZE) = (frameIndex L F : Int) := by
  have hlt := frameIndex_lt L hL F h1 h2
  obtain ⟨_, _, _, h64, _, _, hM⟩ := hL
  have hs : u64sub F L.KERNBASE = F - L.KERNBASE := by
    unfold u64sub
    simp only [PGSIZE] at h64
    rw [Nat.mod_eq_of_lt (show F < 2 ^ 64 by omega),
      Nat.mod_eq_of_lt (show L.KERNBASE < 2 ^ 64 by omega)]
    omega
  rw [hs]
  apply toInt32_small
  unfold frameIndex MAX_PAGES at *
  simp only [PGSIZE] at *
  omega

theorem u32dec_of_pos (n : Nat) (h0 : 0 < n) (h : n < 2 ^ 32) : u32dec n = n - 1 := by
  unfold u32dec
  omega

theorem u32dec_lt (n : Nat) : u32dec n < 2 ^ 32 := by
  unfold u32dec
  omega

/-! ## What each branch of the functions computes -/

/-- The shared branch of `kfree` (count above 1). -/
theorem kfree_shared (L : Layout) (hL : L.WF) (s : State) (pa : Nat)
    (h1 : L.KERNBASE ≤ pa) (h2 : pa < L.PHYSTOP) (hn : 1 < countOf L s pa) :
    kfree L pa s = Result.ok () { s with
      page_refcount := setCount s.page_refcount (frameIndex L pa) (u32dec (countOf L s pa)),
      events := s.events ++ [LockEvent.acquire Lock.ref_lock, LockEvent.release Lock.ref_lock] } := by
  have hi := pa_index_in_range L hL pa h1 h2
  have ht := inTable_frameIndex L hL pa h1 h2
  unfold countOf at hn
  simp [kfree, hi, ht, acquire, release, hn, countOf]

/-- The validation of `kfree`, reached when the count is at most 1. -/
theorem kfree_panic (L : Layout) (hL : L.WF) (s : State) (pa : Nat)
    (h1 : L.KERNBASE ≤ pa) (h2 : pa < L.PHYSTOP) (hn : countOf L s pa ≤ 1)
    (hbad : pa % PGSIZE ≠ 0 ∨ pa < L.kend) :
    kfree L pa s = Result.panic "kfree" (acquire Lock.ref_lock s) := by
  have hi := pa_index_in_range L hL pa h1 h2
  have ht := inTable_frameIndex L hL pa h1 h2
  unfold countOf at hn
  have hn' : ¬ 1 < s.page_refcount (frameIndex L pa) := by omega
  have hb : pa % PGSIZE ≠ 0 ∨ pa < L.kend ∨ pa ≥ L.PHYSTOP := by
    rcases hbad with h | h
    · exact Or.inl h
    · exact Or.inr (Or.inl h)
  simp only [kfree, hi, Int.toNat_ofNat, ht, not_true_eq_false, if_false, acquire, gt_iff_lt, hn',
    hb, if_true]

/-- The reclaiming branch of `kfree` (valid frame, count at most 1). -/
theorem kfree_reclaim (L : Layout) (hL : L.WF) (s : State) (pa : Nat)
    (hf : isFrame L pa) (hn : countOf L s pa ≤ 1) :
    kfree L pa s = Result.ok () {
      freelist := pa,
      mem := store64 (memset s.mem pa 1 PGSIZE) pa s.freelist,
      page_refcount := setCount s.page_refcount (frameIndex L pa) 0,
      events := s.events ++ [LockEvent.acquire Lock.ref_lock, LockEvent.release Lock.ref_lock,
        LockEvent.acquire Lock.kmem, LockEvent.release Lock.kmem] } := by
  obtain ⟨ha, hk, hp⟩ := hf
  have h1 : L.KERNBASE ≤ pa := le_trans hL.2.1 hk
  have hi := pa_index_in_range L hL pa h1 hp
  have ht := inTable_frameIndex L hL pa h1 hp
  unfold countOf at hn
  have hn' : ¬ 1 < s.page_refcount (frameIndex L pa) := by omega
  have hb : ¬ (pa % PGSIZE ≠ 0 ∨ pa < L.kend ∨ pa ≥ L.PHYSTOP) := by
    simp only [ne_eq, ha, not_true_eq_false, false_or, ge_iff_le, not_or, not_lt, not_le]
    exact ⟨hk, hp⟩
  simp only [kfree, hi, Int.toNat_ofNat, ht, not_true_eq_false, if_false, acquire, gt_iff_lt, hn',
    hb, release, List.append_assoc, List.singleton_append, List.cons_append, List.nil_append]

/-- `kalloc` on a non-null head that is an address of `[KERNBASE, PHYSTOP)`. -/
theorem kalloc_pop (L : Layout) (hL : L.WF) (s : State)
    (h0 : s.freelist ≠ 0) (h1 : L.KERNBASE ≤ s.freelist) (h2 : s.freelist < L.PHYSTOP) :
    kalloc L s = Result.ok s.freelist {
      freelist := load64 s.mem s.freelist,
      mem := s.mem,
      page_refcount := setCount s.page_refcount (frameIndex L s.freelist) 1,
      events := s.events ++ [LockEvent.acquire Lock.kmem, LockEvent.release Lock.kmem,
        LockEvent.acquire Lock.ref_lock, LockEvent.release Lock.ref_lock] } := by
  have hi := kalloc_index L hL s.freelist h1 h2
  have ht := inTable_frameIndex L hL s.freelist h1 h2
  simp only [kalloc, acquire, ne_eq, h0, not_false_eq_true, if_true, release, hi, ht,
    not_true_eq_false, if_false, Int.toNat_ofNat, List.append_assoc, List.singleton_append,
    List.cons_append, List.nil_append]

/-- `kalloc` on an empty free list. -/
theorem kalloc_empty (L : Layout) (s : State) (h0 : s.freelist = 0) :
    kalloc L s = Result.ok 0 { s with
      events := s.events ++ [LockEvent.acquire Lock.kmem, LockEvent.release Lock.kmem] } := by
  simp [kalloc, acquire, release, h0]

/-- `add_ref` on an address of `[KERNBASE, PHYSTOP)`. -/
theorem add_ref_in_range (L : Layout) (hL : L.WF) (s : State) (pa : Nat)
    (h1 : L.KERNBASE ≤ pa) (h2 : pa < L.PHYSTOP) :
    add_ref L pa s = Result.ok () { s with
      page_refcount := setCount s.page_refcount (frameIndex L pa) (u32inc (countOf L s pa)),
      events := s.events ++ [LockEvent.acquire Lock.ref_lock, LockEvent.release Lock.ref_lock] } := by
  have hne := pa_index_ne_neg_one L hL pa h1 h2
  have hi := pa_index_in_range L hL pa h1 h2
  have ht := inTable_frameIndex L hL pa h1 h2
  rw [hi] at hne
  simp [add_ref, hi, hne, ht, acquire, release, countOf]

/-- `dec_ref` on an address of `[KERNBASE, PHYSTOP)`: the decrement, followed by
`kfree` exactly when the new count is 0. -/
theorem dec_ref_in_range (L : Layout) (hL : L.WF) (s : State) (pa : Nat)
    (h1 : L.KERNBASE ≤ pa) (h2 : pa < L.PHYSTOP) :
    dec_ref L pa s =
      if u32dec (countOf L s pa) = 0 then kfree L pa (decremented L s pa)
      else Result.ok () (decremented L s pa) := by
  have hne := pa_index_ne_neg_one L hL pa h1 h2
  have hi := pa_index_in_range L hL pa h1 h2
  have ht := inTable_frameIndex L hL pa h1 h2
  rw [hi] at hne
  have hz := toInt32_eq_zero_iff (u32dec (countOf L s pa)) (u32dec_lt _)
  simp only [dec_ref, hi, hne, if_false, ht, not_true_eq_false, Int.toNat_ofNat, acquire,
    release, setCount, if_true, decremented, countOf, List.append_assoc, List.singleton_append,
    List.cons_append, List.nil_append] at hz ⊢
  by_cases hc : u32dec (s.page_refcount (frameIndex L pa)) = 0
  · rw [if_pos (hz.mpr hc), if_pos hc]
  · rw [if_neg (fun h => hc (hz.mp h)), if_neg hc]

/-- Outside `[KERNBASE, PHYSTOP)` both `add_ref` and `dec_ref` return at once. -/
theorem add_ref_out_of_range (L : Layout) (s : State) (pa : Nat)
    (h : pa < L.KERNBASE ∨ L.PHYSTOP ≤ pa) : add_ref L pa s = Result.ok () s := by
  simp [add_ref, pa_index_out_of_range L pa h]

theorem dec_ref_out_of_range (L : Layout) (s : State) (pa : Nat)
    (h : pa < L.KERNBASE ∨ L.PHYSTOP ≤ pa) : dec_ref L pa s = Result.ok () s := by
  simp [dec_ref, pa_index_out_of_range L pa h]

/-! ## The free list as a sequence -/

theorem FreeList_congr (L : Layout) (mem mem' : Nat → Nat) (l : List Nat)
    (h : ∀ F ∈ l, ∀ a, F ≤ a → a < F + 8 → mem' a = mem a) :
    ∀ hd, FreeList L mem hd l → FreeList L mem' hd l := by
  induction l with
  | nil => intro hd hl; exact hl
  | cons F t ih =>
    intro hd hl
    obtain ⟨e, h0, hf, ht⟩ := hl
    refine ⟨e, h0, hf, ?_⟩
    rw [load64_congr mem mem' F (h F (List.mem_cons_self F t))]
    exact ih (fun G hG => h G (List.mem_cons_of_mem F hG)) _ ht

theorem FreeList_isFrame (L : Layout) (mem : Nat → Nat) (l : List Nat) :
    ∀ hd, FreeList L mem hd l → ∀ F ∈ l, isFrame L F := by
  induction l with
  | nil => intro hd _ F hF; cases hF
  | cons G t ih =>
    intro hd hl F hF
    obtain ⟨_, _, hf, ht⟩ := hl
    rcases List.mem_cons.mp hF with h | h
    · rw [h]; exact hf
    · exact ih _ ht F h

/-- A pointer starts at most one sequence: the free list is a function of the state. -/
theorem FreeList_unique (L : Layout) (mem : Nat → Nat) (l : List Nat) :
    ∀ hd l', FreeList L mem hd l → FreeList L mem hd l' → l = l' := by
  induction l with
  | nil =>
    intro hd l' hl hl'
    cases l' with
    | nil => rfl
    | cons G t => exact absurd (hl ▸ hl'.1).symm hl'.2.1
  | cons F t ih =>
    intro hd l' hl hl'
    cases l' with
    | nil => exact absurd (hl' ▸ hl.1).symm hl.2.1
    | cons G t' =>
      obtain ⟨e, _, _, ht⟩ := hl
      obtain ⟨e', _, _, ht'⟩ := hl'
      have hFG : F = G := e.symm.trans e'
      subst hFG
      rw [ih _ t' ht ht']

theorem FreeList_head_lt (L : Layout) (hL : L.WF) (mem : Nat → Nat) (hd : Nat) (l : List Nat)
    (hl : FreeList L mem hd l) : hd < 2 ^ 64 := by
  obtain ⟨_, _, _, h64, _, _, _⟩ := hL
  cases l with
  | nil => rw [show hd = 0 from hl]; norm_num
  | cons F t =>
    obtain ⟨e, _, ⟨_, _, hp⟩, _⟩ := hl
    omega

/-- Two distinct page-aligned addresses are the starts of disjoint frames. -/
theorem frames_disjoint (F pa a : Nat) (hF : F % PGSIZE = 0) (hpa : pa % PGSIZE = 0)
    (hne : F ≠ pa) (h1 : F ≤ a) (h2 : a < F + 8) : ¬ (pa ≤ a ∧ a < pa + PGSIZE) := by
  simp only [PGSIZE] at *
  omega

/-- Linking a frame that is not in the sequence in front of it, as `kfree` does. -/
theorem FreeList_push (L : Layout) (hL : L.WF) (mem : Nat → Nat) (hd pa : Nat) (l : List Nat)
    (hf : isFrame L pa) (hnot : pa ∉ l) (hl : FreeList L mem hd l) :
    FreeList L (store64 (memset mem pa 1 PGSIZE) pa hd) pa (pa :: l) := by
  have h0 : pa ≠ 0 := by
    have := hL.1; have := hL.2.1; have := hf.2.1; omega
  refine ⟨rfl, h0, hf, ?_⟩
  rw [load64_store64 _ _ _ (FreeList_head_lt L hL mem hd l hl)]
  apply FreeList_congr L mem _ l _ hd hl
  intro F hF a ha1 ha2
  have hFf := FreeList_isFrame L mem l hd hl F hF
  have hne : F ≠ pa := fun e => hnot (e ▸ hF)
  have hd := frames_disjoint F pa a hFf.1 hf.1 hne ha1 ha2
  have hd8 : ¬ (pa ≤ a ∧ a < pa + 8) := by
    simp only [PGSIZE] at hd
    omega
  simp only [store64, memset, hd8, hd, if_false]

theorem FreeList_suffix (L : Layout) (mem : Nat → Nat) (l1 l2 : List Nat) :
    ∀ hd, FreeList L mem hd (l1 ++ l2) → ∃ hd', FreeList L mem hd' l2 := by
  induction l1 with
  | nil => intro hd hl; exact ⟨hd, hl⟩
  | cons G t ih => intro hd hl; exact ih _ hl.2.2.2

/-- The frame at the head does not occur again: a well-formed free list has no
repetition. -/
theorem FreeList_head_not_mem (L : Layout) (mem : Nat → Nat) (hd F : Nat) (t : List Nat)
    (hl : FreeList L mem hd (F :: t)) : F ∉ t := by
  intro hmem
  obtain ⟨t1, t2, e⟩ := List.append_of_mem hmem
  have ht : FreeList L mem (load64 mem F) t := hl.2.2.2
  rw [e] at ht
  obtain ⟨hd', h'⟩ := FreeList_suffix L mem t1 (F :: t2) _ ht
  have h2 : FreeList L mem (load64 mem F) t2 := h'.2.2.2
  have hu := FreeList_unique L mem _ _ _ ht h2
  have hlen := congrArg List.length hu
  simp at hlen
  omega

theorem FreeList_nodup (L : Layout) (mem : Nat → Nat) (l : List Nat) :
    ∀ hd, FreeList L mem hd l → l.Nodup := by
  induction l with
  | nil => intro _ _; exact List.nodup_nil
  | cons F t ih =>
    intro hd hl
    exact List.nodup_cons.mpr ⟨FreeList_head_not_mem L mem hd F t hl, ih _ hl.2.2.2⟩

/-- A frame whose link points to itself starts no finite sequence. -/
theorem FreeList_self_link (L : Layout) (mem : Nat → Nat) (F : Nat) (h0 : F ≠ 0)
    (hself : load64 mem F = F) : ∀ l, ¬ FreeList L mem F l := by
  intro l hl
  cases l with
  | nil => exact h0 hl
  | cons G t =>
    have e : F = G := hl.1
    subst e
    have ht : FreeList L mem (load64 mem F) t := hl.2.2.2
    rw [hself] at ht
    have hu := FreeList_unique L mem _ _ _ hl ht
    have hlen := congrArg List.length hu
    simp at hlen

theorem setCount_setCount (f : Nat → Nat) (i v w : Nat) :
    setCount (setCount f i v) i w = setCount f i w := by
  funext j
  unfold setCount
  split <;> rfl

theorem u32dec_eq_zero_iff (n : Nat) (h : n < 2 ^ 32) : u32dec n = 0 ↔ n = 1 := by
  unfold u32dec
  omega

theorem countOf_decremented (L : Layout) (s : State) (pa : Nat) :
    countOf L (decremented L s pa) pa = u32dec (countOf L s pa) := by
  simp [countOf, decremented, setCount]

/-- `dec_ref` on the last reference of a valid frame: the decrement, then the
reclaiming branch of `kfree`. -/
theorem dec_ref_last (L : Layout) (hL : L.WF) (s : State) (pa : Nat)
    (hf : isFrame L pa) (hc : countOf L s pa = 1) :
    dec_ref L pa s = Result.ok () {
      freelist := pa,
      mem := store64 (memset s.mem pa 1 PGSIZE) pa s.freelist,
      page_refcount := setCount s.page_refcount (frameIndex L pa) 0,
      events := s.events ++ [LockEvent.acquire Lock.ref_lock, LockEvent.release Lock.ref_lock,
        LockEvent.acquire Lock.ref_lock, LockEvent.release Lock.ref_lock,
        LockEvent.acquire Lock.kmem, LockEvent.release Lock.kmem] } := by
  have h1 : L.KERNBASE ≤ pa := le_trans hL.2.1 hf.2.1
  have hz : u32dec (countOf L s pa) = 0 := by rw [hc]; decide
  rw [dec_ref_in_range L hL s pa h1 hf.2.2, if_pos hz,
    kfree_reclaim L hL _ pa hf (by rw [countOf_decremented, hz]; exact Nat.zero_le 1)]
  simp [decremented, hz, setCount_setCount]

/-- `dec_ref` when other references remain: only the decrement. -/
theorem dec_ref_more (L : Layout) (hL : L.WF) (s : State) (pa : Nat)
    (h1 : L.KERNBASE ≤ pa) (h2 : pa < L.PHYSTOP) (hc : u32dec (countOf L s pa) ≠ 0) :
    dec_ref L pa s = Result.ok () (decremented L s pa) := by
  rw [dec_ref_in_range L hL s pa h1 h2, if_neg hc]

/-! ## Seeding by `freerange` -/

theorem mem_framesFrom (n : Nat) : ∀ p F, F ∈ framesFrom p n ↔ ∃ k, k < n ∧ F = p + PGSIZE * k := by
  induction n with
  | zero => intro p F; simp [framesFrom]
  | succ n ih =>
    intro p F
    simp only [framesFrom, List.mem_cons, ih]
    constructor
    · rintro (h | ⟨k, hk, e⟩)
      · exact ⟨0, by omega, by omega⟩
      · exact ⟨k + 1, by omega, by rw [e]; simp only [PGSIZE]; omega⟩
    · rintro ⟨k, hk, e⟩
      cases k with
      | zero => left; omega
      | succ k => right; exact ⟨k, by omega, by rw [e]; simp only [PGSIZE]; omega⟩

theorem framesFrom_nodup (n : Nat) : ∀ p, (framesFrom p n).Nodup := by
  induction n with
  | zero => intro p; exact List.nodup_nil
  | succ n ih =>
    intro p
    refine List.nodup_cons.mpr ⟨?_, ih _⟩
    rw [mem_framesFrom]
    rintro ⟨k, _, e⟩
    simp only [PGSIZE] at e
    omega

theorem framesFrom_length (n : Nat) : ∀ p, (framesFrom p n).length = n := by
  induction n with
  | zero => intro p; rfl
  | succ n ih => intro p; simp [framesFrom, ih]

/-- The frames that `kinit` seeds are exactly the page-aligned addresses of
`[end, PHYSTOP)`. -/
theorem mem_seeded (L : Layout) (hL : L.WF) (F : Nat) : F ∈ seeded L ↔ isFrame L F := by
  obtain ⟨_, _, _, h64, _, hP, _⟩ := hL
  unfold seeded isFrame PGROUNDUP
  rw [mem_framesFrom]
  simp only [PGSIZE] at *
  have hm : (L.kend + 4096 - 1) % 2 ^ 64 = L.kend + 4095 := by omega
  rw [hm]
  constructor
  · rintro ⟨k, hk, e⟩
    have hk' : k + 1 ≤ (L.PHYSTOP - (L.kend + 4095) / 4096 * 4096) / 4096 := hk
    rw [Nat.le_div_iff_mul_le (by norm_num)] at hk'
    omega
  · rintro ⟨ha, hk, hp⟩
    refine ⟨(F - (L.kend + 4095) / 4096 * 4096) / 4096, ?_, ?_⟩
    · rw [Nat.div_lt_iff_lt_mul (by norm_num)]
      have := Nat.div_add_mod (L.PHYSTOP - (L.kend + 4095) / 4096 * 4096) 4096
      omega
    · omega

/-- The loop of `freerange` from a page-aligned `p ≥ end` up to `pa_end ≤ PHYSTOP`,
on all-zero counters and a free list below `p`: every `kfree` reclaims, so the
loop returns with the visited frames pushed in front, highest first. -/
theorem freerangeLoop_spec (L : Layout) (hL : L.WF) (pa_end : Nat) (hend : pa_end ≤ L.PHYSTOP) :
    ∀ (n p : Nat) (s : State) (l : List Nat), p % PGSIZE = 0 → L.kend ≤ p →
      (pa_end - p) / PGSIZE = n → FreeList L s.mem s.freelist l → (∀ F ∈ l, F < p) →
      (∀ i, s.page_refcount i = 0) →
      ∃ s', freerangeLoop L pa_end p s = Result.ok () s' ∧
        FreeList L s'.mem s'.freelist ((framesFrom p n).reverse ++ l) ∧
        (∀ i, s'.page_refcount i = 0) := by
  intro n
  induction n with
  | zero =>
    intro p s l _ _ hn hl _ hz
    have hstop : ¬ (p + PGSIZE ≤ pa_end) := by
      simp only [PGSIZE] at *
      omega
    rw [freerangeLoop, if_neg hstop]
    exact ⟨s, rfl, by simpa [framesFrom] using hl, hz⟩
  | succ n ih =>
    intro p s l ha hk hn hl hlt hz
    have hgo : p + PGSIZE ≤ pa_end := by
      simp only [PGSIZE] at *
      omega
    have hf : isFrame L p := ⟨ha, hk, by simp only [PGSIZE] at hgo; omega⟩
    have hnot : p ∉ l := fun h => Nat.lt_irrefl p (hlt p h)
    have hpush := FreeList_push L hL s.mem s.freelist p l hf hnot hl
    have ha' : (p + PGSIZE) % PGSIZE = 0 := by
      simp only [PGSIZE] at *
      omega
    have hk' : L.kend ≤ p + PGSIZE := by omega
    have hn' : (pa_end - (p + PGSIZE)) / PGSIZE = n := by
      simp only [PGSIZE] at *
      omega
    have hlt' : ∀ F ∈ p :: l, F < p + PGSIZE := by
      intro F hF
      rcases List.mem_cons.mp hF with h | h
      · simp only [PGSIZE]; omega
      · have := hlt F h; omega
    have hz' : ∀ i, setCount s.page_refcount (frameIndex L p) 0 i = 0 := by
      intro i
      unfold setCount
      split
      · rfl
      · exact hz i
    rw [freerangeLoop, if_pos hgo, kfree_reclaim L hL s p hf (by rw [countOf, hz]; exact Nat.zero_le 1)]
    obtain ⟨s', e, hl', hz''⟩ := ih (p + PGSIZE)
      { freelist := p, mem := store64 (memset s.mem p 1 PGSIZE) p s.freelist,
        page_refcount := setCount s.page_refcount (frameIndex L p) 0,
        events := s.events ++ [LockEvent.acquire Lock.ref_lock, LockEvent.release Lock.ref_lock,
          LockEvent.acquire Lock.kmem, LockEvent.release Lock.kmem] }
      (p :: l) ha' hk' hn' hpush hlt' hz'
    refine ⟨s', e, ?_, hz''⟩
    simpa [framesFrom, List.reverse_cons, List.append_assoc] using hl'

/-- `kinit` on the boot state returns with the seeded frames as the free list,
the highest address in front, and all counters still 0. -/
theorem kinit_spec (L : Layout) (hL : L.WF) (mem0 : Nat → Nat) :
    ∃ s, kinit L (boot mem0) = Result.ok () s ∧
      FreeList L s.mem s.freelist (seeded L).reverse ∧ (∀ i, s.page_refcount i = 0) := by
  have h64 := hL.2.2.2.1
  have hr1 : PGROUNDUP L.kend % PGSIZE = 0 := by
    unfold PGROUNDUP
    exact Nat.mul_mod_left _ _
  have hr2 : L.kend ≤ PGROUNDUP L.kend := by
    have hk := hL.2.2.1
    unfold PGROUNDUP
    simp only [PGSIZE] at *
    omega
  obtain ⟨s, e, hl, hz⟩ := freerangeLoop_spec L hL L.PHYSTOP (Nat.le_refl _)
    ((L.PHYSTOP - PGROUNDUP L.kend) / PGSIZE) (PGROUNDUP L.kend)
    (initlock Lock.kmem (initlock Lock.ref_lock (boot mem0))) [] hr1 hr2 rfl rfl
    (fun F hF => by cases hF) (fun i => rfl)
  exact ⟨s, e, by simpa [seeded] using hl, hz⟩

/-! ## The invariant of the reachable states -/

/-- Distinct frames have distinct entries in `page_refcount`. -/
theorem frameIndex_inj (L : Layout) (hL : L.WF) (F G : Nat) (hF : isFrame L F) (hG : isFrame L G)
    (h : frameIndex L F = frameIndex L G) : F = G := by
  obtain ⟨_, hKe, _, _, hK, _, _⟩ := hL
  obtain ⟨hF1, hF2, _⟩ := hF
  obtain ⟨hG1, hG2, _⟩ := hG
  unfold frameIndex at h
  simp only [PGSIZE] at *
  omega

theorem setCount_same (f : Nat → Nat) (i v : Nat) : setCount f i v i = v := by
  simp [setCount]

theorem setCount_frame_ne (L : Layout) (hL : L.WF) (f : Nat → Nat) (F G v : Nat)
    (hF : isFrame L F) (hG : isFrame L G) (hne : G ≠ F) :
    setCount f (frameIndex L F) v (frameIndex L G) = f (frameIndex L G) := by
  unfold setCount
  rw [if_neg]
  intro h
  exact hne (frameIndex_inj L hL G F hG hF h)

theorem setCount_others (L : Layout) (f : Nat → Nat) (pa v : Nat) (hf : isFrame L pa)
    (h : ∀ i, (∀ F, isFrame L F → frameIndex L F ≠ i) → f i = 0) :
    ∀ i, (∀ F, isFrame L F → frameIndex L F ≠ i) → setCount f (frameIndex L pa) v i = 0 := by
  intro i hi
  unfold setCount
  rw [if_neg (fun e => hi pa hf e.symm)]
  exact h i hi

theorem setCount_lt (f : Nat → Nat) (i v b : Nat) (hv : v < b) (hf : ∀ j, f j < b) :
    ∀ j, setCount f i v j < b := by
  intro j
  unfold setCount
  split
  · exact hv
  · exact hf j

/-- The invariant after a reclaiming `kfree` (directly or through `dec_ref`) of an
allocated frame: the frame is pushed and its count is cleared. -/
theorem Inv_reclaim (L : Layout) (hL : L.WF) (s : State) (R l : List Nat) (pa : Nat)
    (ev : List LockEvent) (hI : Inv L s R l) (hf : isFrame L pa) (hc : 1 ≤ countOf L s pa) :
    Inv L {
      freelist := pa, mem := store64 (memset s.mem pa 1 PGSIZE) pa s.freelist,
      page_refcount := setCount s.page_refcount (frameIndex L pa) 0, events := ev } R (pa :: l) := by
  have hnot : pa ∉ l := fun h => by have := hI.free_zero pa h; omega
  refine ⟨FreeList_push L hL s.mem s.freelist pa l hf hnot hI.list, ?_, ?_, ?_, hI.returned,
    setCount_others L _ pa 0 hf hI.others_zero⟩
  · intro F hF
    rcases List.mem_cons.mp hF with h | h
    · rw [h]; exact setCount_same _ _ _
    · have hFf := FreeList_isFrame L s.mem l _ hI.list F h
      have hne : F ≠ pa := fun e => hnot (e ▸ h)
      show setCount s.page_refcount (frameIndex L pa) 0 (frameIndex L F) = 0
      rw [setCount_frame_ne L hL _ pa F 0 hf hFf hne]
      exact hI.free_zero F h
  · intro F hFf hF
    have hne : F ≠ pa := fun e => hF (e ▸ List.mem_cons_self pa l)
    show 1 ≤ setCount s.page_refcount (frameIndex L pa) 0 (frameIndex L F)
    rw [setCount_frame_ne L hL _ pa F 0 hf hFf hne]
    exact hI.used_pos F hFf (fun h => hF (List.mem_cons_of_mem pa h))
  · exact setCount_lt _ _ _ _ (by norm_num) hI.bound

/-- The invariant after a change of the count of an allocated frame to a positive
value, with the free list and memory untouched. -/
theorem Inv_recount (L : Layout) (hL : L.WF) (s : State) (R l : List Nat) (pa v : Nat)
    (ev : List LockEvent) (hI : Inv L s R l) (hf : isFrame L pa) (hc : 1 ≤ countOf L s pa)
    (hv1 : 1 ≤ v) (hv2 : v < 2 ^ 32 - 1) :
    Inv L { s with
      page_refcount := setCount s.page_refcount (frameIndex L pa) v,
      events := ev } R l := by
  have hnot : pa ∉ l := fun h => by have := hI.free_zero pa h; omega
  refine ⟨hI.list, ?_, ?_, setCount_lt _ _ _ _ hv2 hI.bound, hI.returned,
    setCount_others L _ pa v hf hI.others_zero⟩
  · intro F hF
    have hFf := FreeList_isFrame L s.mem l _ hI.list F hF
    have hne : F ≠ pa := fun e => hnot (e ▸ hF)
    show setCount s.page_refcount (frameIndex L pa) v (frameIndex L F) = 0
    rw [setCount_frame_ne L hL _ pa F v hf hFf hne]
    exact hI.free_zero F hF
  · intro F hFf hF
    show 1 ≤ setCount s.page_refcount (frameIndex L pa) v (frameIndex L F)
    by_cases hne : F = pa
    · rw [hne, setCount_same]; exact hv1
    · rw [setCount_frame_ne L hL _ pa F v hf hFf hne]
      exact hI.used_pos F hFf hF

theorem Inv_init (L : Layout) (hL : L.WF) (mem0 : Nat → Nat) (s : State)
    (h : kinit L (boot mem0) = Result.ok () s) : Inv L s [] (seeded L).reverse := by
  obtain ⟨s0, e, hl, hz⟩ := kinit_spec L hL mem0
  rw [e] at h
  injection h with _ hs
  subst hs
  refine ⟨hl, fun F _ => hz _, ?_, fun i => (by rw [hz i]; norm_num),
    fun pa hpa => (by cases hpa), fun i _ => hz i⟩
  intro F hFf hF
  exact absurd (List.mem_reverse.mpr ((mem_seeded L hL F).mpr hFf)) hF

theorem Inv_kalloc (L : Layout) (hL : L.WF) (s s' : State) (R l : List Nat) (r : Nat)
    (hI : Inv L s R l) (h : kalloc L s = Result.ok r s') :
    ∃ l', Inv L s' (if r = 0 then R else r :: R) l' := by
  cases l with
  | nil =>
    have h0 : s.freelist = 0 := hI.list
    rw [kalloc_empty L s h0] at h
    injection h with hr hs
    subst hr
    subst hs
    exact ⟨[], by
      simpa using ⟨hI.list, hI.free_zero, hI.used_pos, hI.bound, hI.returned, hI.others_zero⟩⟩
  | cons F t =>
    have hl := hI.list
    have hnot : F ∉ t := FreeList_head_not_mem L s.mem s.freelist F t hl
    obtain ⟨e, h0, hf, ht⟩ := hl
    subst e
    have hK : L.KERNBASE ≤ s.freelist := le_trans hL.2.1 hf.2.1
    rw [kalloc_pop L hL s h0 hK hf.2.2] at h
    injection h with hr hs
    subst hr
    subst hs
    rw [if_neg h0]
    refine ⟨t, ht, ?_, ?_, setCount_lt _ _ _ _ (by norm_num) hI.bound, ?_,
      setCount_others L _ s.freelist 1 hf hI.others_zero⟩
    · intro G hG
      have hGf := FreeList_isFrame L s.mem t _ ht G hG
      have hne : G ≠ s.freelist := fun e => hnot (e ▸ hG)
      show setCount s.page_refcount (frameIndex L s.freelist) 1 (frameIndex L G) = 0
      rw [setCount_frame_ne L hL _ s.freelist G 1 hf hGf hne]
      exact hI.free_zero G (List.mem_cons_of_mem _ hG)
    · intro G hGf hG
      show 1 ≤ setCount s.page_refcount (frameIndex L s.freelist) 1 (frameIndex L G)
      by_cases hne : G = s.freelist
      · rw [hne, setCount_same]
      · rw [setCount_frame_ne L hL _ s.freelist G 1 hf hGf hne]
        refine hI.used_pos G hGf (fun hm => ?_)
        rcases List.mem_cons.mp hm with h1 | h1
        · exact hne h1
        · exact hG h1
    · intro pa hpa
      rcases List.mem_cons.mp hpa with h1 | h1
      · rw [h1]; exact hf
      · exact hI.returned pa h1

theorem Inv_kfree (L : Layout) (hL : L.WF) (s s' : State) (R l : List Nat) (pa : Nat)
    (hI : Inv L s R l) (hpa : pa ∈ R) (hc : 1 ≤ countOf L s pa)
    (h : kfree L pa s = Result.ok () s') : ∃ l', Inv L s' R l' := by
  have hf := hI.returned pa hpa
  have hK : L.KERNBASE ≤ pa := le_trans hL.2.1 hf.2.1
  have hb : countOf L s pa < 2 ^ 32 - 1 := hI.bound _
  by_cases h1 : 1 < countOf L s pa
  · rw [kfree_shared L hL s pa hK hf.2.2 h1] at h
    injection h with _ hs
    subst hs
    have hd := u32dec_of_pos (countOf L s pa) (by omega) (by omega)
    exact ⟨l, Inv_recount L hL s R l pa _ _ hI hf hc (by omega) (by omega)⟩
  · rw [kfree_reclaim L hL s pa hf (by omega)] at h
    injection h with _ hs
    subst hs
    exact ⟨pa :: l, Inv_reclaim L hL s R l pa _ hI hf hc⟩

theorem Inv_add_ref (L : Layout) (hL : L.WF) (s s' : State) (R l : List Nat) (pa : Nat)
    (hI : Inv L s R l) (hpa : pa ∈ R) (hc : 1 ≤ countOf L s pa)
    (hmax : countOf L s pa + 1 < 2 ^ 32 - 1)
    (h : add_ref L pa s = Result.ok () s') : ∃ l', Inv L s' R l' := by
  have hf := hI.returned pa hpa
  have hK : L.KERNBASE ≤ pa := le_trans hL.2.1 hf.2.1
  rw [add_ref_in_range L hL s pa hK hf.2.2] at h
  injection h with _ hs
  subst hs
  have hv : u32inc (countOf L s pa) = countOf L s pa + 1 := by
    unfold u32inc
    omega
  exact ⟨l, Inv_recount L hL s R l pa _ _ hI hf hc (by omega) (by omega)⟩

theorem Inv_dec_ref (L : Layout) (hL : L.WF) (s s' : State) (R l : List Nat) (pa : Nat)
    (hI : Inv L s R l) (hpa : pa ∈ R) (hc : 1 ≤ countOf L s pa)
    (h : dec_ref L pa s = Result.ok () s') : ∃ l', Inv L s' R l' := by
  have hf := hI.returned pa hpa
  have hK : L.KERNBASE ≤ pa := le_trans hL.2.1 hf.2.1
  have hb : countOf L s pa < 2 ^ 32 - 1 := hI.bound _
  by_cases h1 : countOf L s pa = 1
  · rw [dec_ref_last L hL s pa hf h1] at h
    injection h with _ hs
    subst hs
    exact ⟨pa :: l, Inv_reclaim L hL s R l pa _ hI hf hc⟩
  · have hd := u32dec_of_pos (countOf L s pa) (by omega) (by omega)
    rw [dec_ref_more L hL s pa hK hf.2.2 (by omega)] at h
    injection h with _ hs
    subst hs
    exact ⟨l, Inv_recount L hL s R l pa _ _ hI hf hc (by omega) (by omega)⟩

/-- Every reachable state satisfies the invariant. -/
theorem Reach_Inv (L : Layout) (hL : L.WF) (s : State) (R : List Nat) (h : Reach L s R) :
    ∃ l, Inv L s R l := by
  induction h with
  | init mem0 s h => exact ⟨_, Inv_init L hL mem0 s h⟩
  | kalloc s s' R r _ h ih =>
    obtain ⟨l, hI⟩ := ih
    exact Inv_kalloc L hL s s' R l r hI h
  | kfree s s' R pa _ hpa _ hc h ih =>
    obtain ⟨l, hI⟩ := ih
    exact Inv_kfree L hL s s' R l pa hI hpa hc h
  | add_ref s s' R pa _ hpa _ hc hmax h ih =>
    obtain ⟨l, hI⟩ := ih
    exact Inv_add_ref L hL s s' R l pa hI hpa hc hmax h
  | dec_ref s s' R pa _ hpa _ hc h ih =>
    obtain ⟨l, hI⟩ := ih
    exact Inv_dec_ref L hL s s' R l pa hI hpa hc h

/-- Under the invariant the free list and the frames in use partition the seeded
frames, so their numbers add up to the number of seeded frames. -/
theorem Inv_count (L : Layout) (hL : L.WF) (s : State) (R l : List Nat) (hI : Inv L s R l) :
    l.length + ((seeded L).filter (fun F => decide (1 ≤ countOf L s F))).length
      = (seeded L).length := by
  have hperm : l.Perm ((seeded L).filter (fun F => ¬ decide (1 ≤ countOf L s F))) := by
    rw [List.perm_ext_iff_of_nodup (FreeList_nodup L s.mem l _ hI.list)
      ((show (seeded L).Nodup from framesFrom_nodup _ _).filter _)]
    intro F
    simp only [List.mem_filter, mem_seeded L hL F, decide_eq_true_eq, decide_not,
      Bool.not_eq_true', decide_eq_false_iff_not]
    constructor
    · intro hF
      exact ⟨FreeList_isFrame L s.mem l _ hI.list F hF, by rw [hI.free_zero F hF]; omega⟩
    · rintro ⟨hFf, hc⟩
      by_contra hF
      exact hc (hI.used_pos F hFf hF)
  rw [hperm.length_eq, List.length_eq_countP_add_countP (fun F => decide (1 ≤ countOf L s F))
    (seeded L), List.countP_eq_length_filter, List.countP_eq_length_filter]
  rw [Nat.add_comm]

/-- On a state with a well-formed free list `kalloc` returns. -/
theorem kalloc_returns (L : Layout) (hL : L.WF) (s : State) (l : List Nat)
    (hl : FreeList L s.mem s.freelist l) : ∃ r s', kalloc L s = Result.ok r s' := by
  cases l with
  | nil => exact ⟨_, _, kalloc_empty L s hl⟩
  | cons F t =>
    obtain ⟨e, h0, hf, _⟩ := hl
    subst e
    exact ⟨_, _, kalloc_pop L hL s h0 (le_trans hL.2.1 hf.2.1) hf.2.2⟩

/-- After `kinit` on the boot state a call of `kalloc` returns. -/
theorem kinit_kalloc_returns (L : Layout) (hL : L.WF) (mem0 : Nat → Nat) :
    ∃ s r s', kinit L (boot mem0) = Result.ok () s ∧ kalloc L s = Result.ok r s' := by
  obtain ⟨s, e, hl, _⟩ := kinit_spec L hL mem0
  obtain ⟨r, s', e'⟩ := kalloc_returns L hL s _ hl
  exact ⟨s, r, s', e, e'⟩

/-- Outside `[KERNBASE, PHYSTOP)` the index `-1` returned by `pa_index` is used by
`kfree` as it is: the first thing `kfree` does is read `page_refcount[-1]`. -/
theorem kfree_out_of_range (L : Layout) (s : State) (pa : Nat)
    (h : pa < L.KERNBASE ∨ L.PHYSTOP ≤ pa) :
    kfree L pa s = Result.fault (-1) (acquire Lock.ref_lock s) := by
  have hi := pa_index_out_of_range L pa h
  have ht : ¬ inTable L (-1) := by
    unfold inTable
    omega
  simp only [kfree, hi, ht, not_false_eq_true, if_true]

/-! ## `freerange` on an arbitrary range -/

theorem PGROUNDUP_eq (a : Nat) (h : a + PGSIZE ≤ 2 ^ 64) :
    PGROUNDUP a = (a + 4095) / 4096 * 4096 := by
  unfold PGROUNDUP
  simp only [PGSIZE] at *
  rw [Nat.mod_eq_of_lt (by omega), show a + 4096 - 1 = a + 4095 by omega]

theorem PGROUNDUP_aligned (a : Nat) : PGROUNDUP a % PGSIZE = 0 := by
  unfold PGROUNDUP
  exact Nat.mul_mod_left _ _

theorem le_PGROUNDUP (a : Nat) (h : a + PGSIZE ≤ 2 ^ 64) : a ≤ PGROUNDUP a := by
  rw [PGROUNDUP_eq a h]
  omega

/-- The loop of `freerange` is the sequence of `kfree` calls on the frames it
visits, whatever these calls do. -/
theorem freerangeLoop_eq_kfreeEach (L : Layout) (pa_end : Nat) :
    ∀ (n p : Nat) (s : State), (pa_end - p) / PGSIZE = n →
      freerangeLoop L pa_end p s = kfreeEach L (framesFrom p n) s := by
  intro n
  induction n with
  | zero =>
    intro p s hn
    have hstop : ¬ (p + PGSIZE ≤ pa_end) := by
      simp only [PGSIZE] at *
      omega
    rw [freerangeLoop, if_neg hstop]
    rfl
  | succ n ih =>
    intro p s hn
    have hgo : p + PGSIZE ≤ pa_end := by
      simp only [PGSIZE] at *
      omega
    have hn' : (pa_end - (p + PGSIZE)) / PGSIZE = n := by
      simp only [PGSIZE] at *
      omega
    rw [freerangeLoop, if_pos hgo]
    simp only [framesFrom, kfreeEach]
    cases kfree L p s with
    | ok v s' => exact ih (p + PGSIZE) s' hn'
    | panic msg s' => rfl
    | fault i s' => rfl

theorem framesFrom_lt (n : Nat) : ∀ p, (framesFrom p n).Pairwise (fun a b => a < b) := by
  induction n with
  | zero => intro p; exact List.Pairwise.nil
  | succ n ih =>
    intro p
    refine List.Pairwise.cons ?_ (ih _)
    intro F hF
    obtain ⟨k, _, e⟩ := (mem_framesFrom n (p + PGSIZE) F).mp hF
    simp only [PGSIZE] at e
    omega

/-- `freerange` on a range inside `[end, PHYSTOP]`, from an empty free list and
all-zero counters: it returns with the visited frames as the free list, the
last one visited in front, and all counters still 0. -/
theorem freerange_spec (L : Layout) (hL : L.WF) (s : State) (pa_start pa_end : Nat)
    (h1 : L.kend ≤ pa_start) (h2 : pa_start ≤ L.PHYSTOP) (h3 : pa_end ≤ L.PHYSTOP)
    (he : s.freelist = 0) (hz : ∀ i, s.page_refcount i = 0) :
    ∃ s', freerange L pa_start pa_end s = Result.ok () s' ∧
      FreeList L s'.mem s'.freelist
        (framesFrom (PGROUNDUP pa_start) ((pa_end - PGROUNDUP pa_start) / PGSIZE)).reverse ∧
      (∀ i, s'.page_refcount i = 0) := by
  have h64 : pa_start + PGSIZE ≤ 2 ^ 64 := by
    have := hL.2.2.2.1
    omega
  have hr2 : L.kend ≤ PGROUNDUP pa_start := le_trans h1 (le_PGROUNDUP pa_start h64)
  obtain ⟨s', e, hl, hz'⟩ := freerangeLoop_spec L hL pa_end h3
    ((pa_end - PGROUNDUP pa_start) / PGSIZE) (PGROUNDUP pa_start) s []
    (PGROUNDUP_aligned pa_start) hr2 rfl he (fun F hF => by cases hF) hz
  exact ⟨s', e, by simpa using hl, hz'⟩

/-- As many `kalloc` calls as the free list has entries return these entries in
order and leave the list empty; each returned frame ends with count 1, and the
counters of other frames and memory are untouched. -/
theorem kallocs_drain (L : Layout) (hL : L.WF) :
    ∀ (l : List Nat) (s : State), FreeList L s.mem s.freelist l →
      ∃ s', kallocs L l.length s = Result.ok l s' ∧ s'.freelist = 0 ∧ s'.mem = s.mem ∧
        (∀ F ∈ l, countOf L s' F = 1) ∧
        (∀ i, (∀ F ∈ l, frameIndex L F ≠ i) → s'.page_refcount i = s.page_refcount i) := by
  intro l
  induction l with
  | nil =>
    intro s hl
    exact ⟨s, rfl, hl, rfl, fun F hF => (by cases hF), fun i _ => rfl⟩
  | cons F t ih =>
    intro s hl
    have hnot : F ∉ t := FreeList_head_not_mem L s.mem s.freelist F t hl
    have hframes := FreeList_isFrame L s.mem (F :: t) _ hl
    obtain ⟨e, h0, hf, ht⟩ := hl
    subst e
    have hK : L.KERNBASE ≤ s.freelist := le_trans hL.2.1 hf.2.1
    have e1 := kalloc_pop L hL s h0 hK hf.2.2
    obtain ⟨s', e2, hd, hm, hc, ho⟩ := ih {
      freelist := load64 s.mem s.freelist,
      mem := s.mem,
      page_refcount := setCount s.page_refcount (frameIndex L s.freelist) 1,
      events := s.events ++ [LockEvent.acquire Lock.kmem, LockEvent.release Lock.kmem,
        LockEvent.acquire Lock.ref_lock, LockEvent.release Lock.ref_lock] } ht
    have hne : ∀ G ∈ t, frameIndex L G ≠ frameIndex L s.freelist := by
      intro G hG hi
      have hGf := hframes G (List.mem_cons_of_mem _ hG)
      exact hnot (frameIndex_inj L hL G s.freelist hGf hf hi ▸ hG)
    refine ⟨s', ?_, hd, hm, ?_, ?_⟩
    · simp only [List.length_cons, kallocs, e1, e2]
    · intro G hG
      rcases List.mem_cons.mp hG with h | h
      · rw [h]
        show s'.page_refcount (frameIndex L s.freelist) = 1
        rw [ho _ hne]
        exact setCount_same _ _ _
      · exact hc G h
    · intro i hi
      rw [ho i (fun G hG => hi G (List.mem_cons_of_mem _ hG))]
      show setCount s.page_refcount (frameIndex L s.freelist) 1 i = s.page_refcount i
      unfold setCount
      rw [if_neg (fun e => hi s.freelist (List.mem_cons_self _ _) e.symm)]

/-! ## Single steps, by their effect on one frame -/

theorem kalloc_step (L : Layout) (hL : L.WF) (s : State) (F : Nat) (t : List Nat)
    (hl : FreeList L s.mem s.freelist (F :: t)) :
    ∃ s', kalloc L s = Result.ok F s' ∧ countOf L s' F = 1 ∧
      s'.freelist = load64 s.mem F ∧ s'.mem = s.mem := by
  obtain ⟨e, h0, hf, _⟩ := hl
  subst e
  exact ⟨_, kalloc_pop L hL s h0 (le_trans hL.2.1 hf.2.1) hf.2.2, setCount_same _ _ _, rfl, rfl⟩

theorem add_ref_step (L : Layout) (hL : L.WF) (s : State) (pa : Nat)
    (h1 : L.KERNBASE ≤ pa) (h2 : pa < L.PHYSTOP) :
    ∃ s', add_ref L pa s = Result.ok () s' ∧ countOf L s' pa = u32inc (countOf L s pa) ∧
      s'.freelist = s.freelist ∧ s'.mem = s.mem :=
  ⟨_, add_ref_in_range L hL s pa h1 h2, setCount_same _ _ _, rfl, rfl⟩

theorem kfree_shared_step (L : Layout) (hL : L.WF) (s : State) (pa : Nat)
    (h1 : L.KERNBASE ≤ pa) (h2 : pa < L.PHYSTOP) (hn : 1 < countOf L s pa) :
    ∃ s', kfree L pa s = Result.ok () s' ∧ countOf L s' pa = u32dec (countOf L s pa) ∧
      s'.freelist = s.freelist ∧ s'.mem = s.mem :=
  ⟨_, kfree_shared L hL s pa h1 h2 hn, setCount_same _ _ _, rfl, rfl⟩

theorem dec_ref_more_step (L : Layout) (hL : L.WF) (s : State) (pa : Nat)
    (h1 : L.KERNBASE ≤ pa) (h2 : pa < L.PHYSTOP) (hc : u32dec (countOf L s pa) ≠ 0) :
    ∃ s', dec_ref L pa s = Result.ok () s' ∧ countOf L s' pa = u32dec (countOf L s pa) ∧
      s'.freelist = s.freelist ∧ s'.mem = s.mem :=
  ⟨_, dec_ref_more L hL s pa h1 h2 hc, setCount_same _ _ _, rfl, rfl⟩

theorem dec_ref_last_step (L : Layout) (hL : L.WF) (s : State) (pa : Nat)
    (hf : isFrame L pa) (hc : countOf L s pa = 1) :
    ∃ s', dec_ref L pa s = Result.ok () s' ∧ countOf L s' pa = 0 ∧
      s'.freelist = pa ∧ s'.mem = store64 (memset s.mem pa 1 PGSIZE) pa s.freelist :=
  ⟨_, dec_ref_last L hL s pa hf hc, setCount_same _ _ _, rfl, rfl⟩

/-! ## The bytes of a reclaimed frame -/

/-- After `memset` and the store of the link, the bytes of the frame from offset
8 on are the fill byte. -/
theorem reclaimed_bytes_fill (mem : Nat → Nat) (pa v a : Nat)
    (h1 : pa + 8 ≤ a) (h2 : a < pa + 4096) :
    store64 (memset mem pa 1 PGSIZE) pa v a = 1 := by
  unfold store64 memset
  rw [if_neg (by omega), if_pos (by simp only [PGSIZE]; omega)]

/-- The first 8 bytes of the frame are the bytes of the link, lowest first. -/
theorem reclaimed_bytes_link (mem : Nat → Nat) (pa v i : Nat) (hi : i < 8) :
    store64 (memset mem pa 1 PGSIZE) pa v (pa + i) = (v / 256 ^ i) % 256 := by
  unfold store64
  rw [if_pos (by omega), Nat.add_sub_cancel_left]

/-- Bytes outside the frame are not written. -/
theorem reclaimed_bytes_outside (mem : Nat → Nat) (pa v a : Nat)
    (h : a < pa ∨ pa + 4096 ≤ a) :
    store64 (memset mem pa 1 PGSIZE) pa v a = mem a := by
  unfold store64 memset
  rw [if_neg (by omega), if_neg (by simp only [PGSIZE]; omega)]

/-! ## The lock calls of each function -/

theorem kfree_disciplined (L : Layout) (s : State) (pa : Nat) :
    DisciplinedCall s (kfree L pa s) := by
  unfold kfree
  dsimp only [acquire, release]
  split_ifs <;> dsimp only [DisciplinedCall] <;>
    (try simp only [List.append_assoc, List.cons_append, List.nil_append]) <;> first
    | exact ⟨_, rfl, by decide, by decide, by decide⟩
    | exact ⟨_, rfl, by decide, by decide⟩

theorem kalloc_disciplined (L : Layout) (s : State) : DisciplinedCall s (kalloc L s) := by
  unfold kalloc
  dsimp only [acquire, release]
  split_ifs <;> dsimp only [DisciplinedCall] <;>
    (try simp only [List.append_assoc, List.cons_append, List.nil_append]) <;> first
    | exact ⟨_, rfl, by decide, by decide, by decide⟩
    | exact ⟨_, rfl, by decide, by decide⟩

theorem add_ref_disciplined (L : Layout) (s : State) (pa : Nat) :
    DisciplinedCall s (add_ref L pa s) := by
  unfold add_ref
  dsimp only [acquire, release]
  split_ifs <;> dsimp only [DisciplinedCall] <;>
    (try simp only [List.append_assoc, List.cons_append, List.nil_append]) <;> first
    | exact ⟨[], (List.append_nil _).symm, by decide, by decide, by decide⟩
    | exact ⟨_, rfl, by decide, by decide, by decide⟩
    | exact ⟨_, rfl, by decide, by decide⟩

theorem dec_ref_disciplined (L : Layout) (s : State) (pa : Nat) :
    DisciplinedCall s (dec_ref L pa s) := by
  unfold dec_ref kfree
  dsimp only [acquire, release]
  split_ifs <;> dsimp only [DisciplinedCall] <;>
    (try simp only [List.append_assoc, List.cons_append, List.nil_append]) <;> first
    | exact ⟨[], (List.append_nil _).symm, by decide, by decide, by decide⟩
    | exact ⟨_, rfl, by decide, by decide, by decide⟩
    | exact ⟨_, rfl, by decide, by decide⟩

/-! ## Releasing a frame twice -/

theorem kfree_reclaim_step (L : Layout) (hL : L.WF) (s : State) (pa : Nat)
    (hf : isFrame L pa) (hn : countOf L s pa ≤ 1) :
    ∃ s', kfree L pa s = Result.ok () s' ∧ countOf L s' pa = 0 ∧
      s'.freelist = pa ∧ s'.mem = store64 (memset s.mem pa 1 PGSIZE) pa s.freelist :=
  ⟨_, kfree_reclaim L hL s pa hf hn, setCount_same _ _ _, rfl, rfl⟩

theorem kalloc_pop_step (L : Layout) (hL : L.WF) (s : State) (F : Nat)
    (hd : s.freelist = F) (hf : isFrame L F) (h0 : F ≠ 0) :
    ∃ s', kalloc L s = Result.ok F s' ∧ s'.freelist = load64 s.mem F ∧ s'.mem = s.mem := by
  subst hd
  exact ⟨_, kalloc_pop L hL s h0 (le_trans hL.2.1 hf.2.1) hf.2.2, rfl, rfl⟩

/-- From a free list with head `F`: `kalloc` returns `F`, two calls of `kfree(F)`
both return, and the next two calls of `kalloc` both return `F` (the second
`kfree` has linked `F` to itself). -/
theorem double_release (L : Layout) (hL : L.WF) (s : State) (F : Nat) (t : List Nat)
    (hl : FreeList L s.mem s.freelist (F :: t)) :
    ∃ s1 s2 s3 s4 s5, kalloc L s = Result.ok F s1 ∧ F ≠ 0 ∧
      kfree L F s1 = Result.ok () s2 ∧ kfree L F s2 = Result.ok () s3 ∧
      load64 s3.mem F = F ∧
      kalloc L s3 = Result.ok F s4 ∧ kalloc L s4 = Result.ok F s5 := by
  have hf : isFrame L F := hl.2.2.1
  have h0 : F ≠ 0 := hl.2.1
  have h64 : F < 2 ^ 64 := by
    have := hL.2.2.2.1; have := hf.2.2; omega
  obtain ⟨s1, e1, c1, _, _⟩ := kalloc_step L hL s F t hl
  obtain ⟨s2, e2, c2, f2, _⟩ := kfree_reclaim_step L hL s1 F hf (by omega)
  obtain ⟨s3, e3, _, f3, m3⟩ := kfree_reclaim_step L hL s2 F hf (by omega)
  have hself : load64 s3.mem F = F := by
    rw [m3, f2]
    exact load64_store64 _ _ _ h64
  obtain ⟨s4, e4, f4, m4⟩ := kalloc_pop_step L hL s3 F f3 hf h0
  obtain ⟨s5, e5, _, _⟩ := kalloc_pop_step L hL s4 F (by rw [f4, hself]) hf h0
  exact ⟨s1, s2, s3, s4, s5, e1, h0, e2, e3, hself, e4, e5⟩

/-- The same after `kinit`, when at least one frame is seeded. -/
theorem kinit_double_release (L : Layout) (hL : L.WF) (mem0 : Nat → Nat)
    (hne : 0 < (L.PHYSTOP - PGROUNDUP L.kend) / PGSIZE) :
    ∃ s0 F s1 s2 s3 s4 s5, kinit L (boot mem0) = Result.ok () s0 ∧
      kalloc L s0 = Result.ok F s1 ∧ F ≠ 0 ∧
      kfree L F s1 = Result.ok () s2 ∧ kfree L F s2 = Result.ok () s3 ∧
      kalloc L s3 = Result.ok F s4 ∧ kalloc L s4 = Result.ok F s5 := by
  obtain ⟨s0, e0, hl, _⟩ := kinit_spec L hL mem0
  have hlen : (seeded L).reverse ≠ [] := by
    intro h
    have := congrArg List.length h
    rw [List.length_reverse, seeded, framesFrom_length] at this
    simp at this
    omega
  obtain ⟨F, t, e⟩ := List.exists_cons_of_ne_nil hlen
  rw [e] at hl
  obtain ⟨s1, s2, s3, s4, s5, e1, h0, e2, e3, _, e4, e5⟩ := double_release L hL s0 F t hl
  exact ⟨s0, F, s1, s2, s3, s4, s5, e0, e1, h0, e2, e3, e4, e5⟩

/-! ## The contracts of the operations -/

/-- C1: `kalloc` on a free list with head `F` returns `F`, leaves the old tail as
the free list, sets `page_refcount[(F - KERNBASE)/4096]` to 1 and changes no
other counter and no byte of memory; on an empty free list it returns 0 (it
does not halt) and leaves the free list, every counter and memory unchanged. -/
theorem kalloc_contract (L : Layout) (hL : L.WF) (s : State) :
    (∀ F t, FreeList L s.mem s.freelist (F :: t) →
      ∃ s', kalloc L s = Result.ok F s' ∧
        FreeList L s'.mem s'.freelist t ∧
        s'.page_refcount ((F - L.KERNBASE) / 4096) = 1 ∧
        (∀ i, i ≠ (F - L.KERNBASE) / 4096 → s'.page_refcount i = s.page_refcount i) ∧
        s'.mem = s.mem) ∧
    (FreeList L s.mem s.freelist [] →
      ∃ s', kalloc L s = Result.ok 0 s' ∧
        s'.freelist = s.freelist ∧ FreeList L s'.mem s'.freelist [] ∧
        s'.page_refcount = s.page_refcount ∧ s'.mem = s.mem) := by
  constructor
  · intro F t hl
    obtain ⟨e, h0, ⟨_, hk, hp⟩, ht⟩ := hl
    subst e
    have h1 : L.KERNBASE ≤ s.freelist := le_trans hL.2.1 hk
    refine ⟨_, kalloc_pop L hL s h0 h1 hp, ht, ?_, ?_, rfl⟩
    · simp [setCount, frameIndex, PGSIZE]
    · intro i hi
      simp [setCount, frameIndex, PGSIZE, hi]
  · intro hl
    have h0 : s.freelist = 0 := hl
    exact ⟨_, kalloc_empty L s h0, rfl, hl, rfl, rfl⟩

theorem kalloc_contract_witness :
    xv6.WF ∧ FreeList xv6 twoFree.mem twoFree.freelist [frameA, frameB] ∧
    ∃ s', kalloc xv6 twoFree = Result.ok frameA s' ∧
      FreeList xv6 s'.mem s'.freelist [frameB] ∧
      s'.page_refcount ((frameA - xv6.KERNBASE) / 4096) = 1 ∧
      (∀ i, i ≠ (frameA - xv6.KERNBASE) / 4096 → s'.page_refcount i = twoFree.page_refcount i) ∧
      s'.mem = twoFree.mem :=
  ⟨by decide, by decide, (kalloc_contract xv6 (by decide) twoFree).1 frameA [frameB] (by decide)⟩

/-- C2 (the code at a failing input): `frameA + 8` is not a multiple of 4096 and
its frame has count 2; `kfree` does not halt there: it returns, and the count
of the frame has dropped to 1. -/
theorem kfree_unaligned_shared_returns :
    (frameA + 8) % 4096 ≠ 0 ∧ countOf xv6 sharedA (frameA + 8) = 2 ∧
    ∃ s', kfree xv6 (frameA + 8) sharedA = Result.ok () s' ∧
      countOf xv6 s' (frameA + 8) = 1 := by
  refine ⟨by decide, by decide, _, kfree_shared xv6 (by decide) sharedA (frameA + 8)
    (by decide) (by decide) (by decide), ?_⟩
  decide

/-- C3: on an address of `[KERNBASE, PHYSTOP)` whose frame has count `n > 1`,
`kfree` returns, the count of that frame is `n - 1`, and the free list (head and
links), every other counter and every byte of memory are unchanged. -/
theorem kfree_shared_contract (L : Layout) (hL : L.WF) (s : State) (pa n : Nat)
    (h1 : L.KERNBASE ≤ pa) (h2 : pa < L.PHYSTOP)
    (hc : s.page_refcount ((pa - L.KERNBASE) / 4096) = n) (hn : 1 < n) (h32 : n < 2 ^ 32) :
    ∃ s', kfree L pa s = Result.ok () s' ∧
      s'.page_refcount ((pa - L.KERNBASE) / 4096) = n - 1 ∧
      (∀ i, i ≠ (pa - L.KERNBASE) / 4096 → s'.page_refcount i = s.page_refcount i) ∧
      s'.freelist = s.freelist ∧ s'.mem = s.mem ∧
      (∀ l, FreeList L s'.mem s'.freelist l ↔ FreeList L s.mem s.freelist l) := by
  have hc' : countOf L s pa = n := hc
  refine ⟨_, kfree_shared L hL s pa h1 h2 (by rw [hc']; exact hn), ?_, ?_, rfl, rfl,
    fun l => Iff.rfl⟩
  · simp only [setCount, frameIndex, PGSIZE, if_true, hc']
    exact u32dec_of_pos n (by omega) h32
  · intro i hi
    simp [setCount, frameIndex, PGSIZE, hi]

theorem kfree_shared_contract_witness :
    ∃ s', kfree xv6 frameA sharedA = Result.ok () s' ∧
      s'.page_refcount ((frameA - xv6.KERNBASE) / 4096) = 2 - 1 ∧
      (∀ i, i ≠ (frameA - xv6.KERNBASE) / 4096 → s'.page_refcount i = sharedA.page_refcount i) ∧
      s'.freelist = sharedA.freelist ∧ s'.mem = sharedA.mem ∧
      (∀ l, FreeList xv6 s'.mem s'.freelist l ↔ FreeList xv6 sharedA.mem sharedA.freelist l) :=
  kfree_shared_contract xv6 (by decide) sharedA frameA 2 (by decide) (by decide) (by decide)
    (by decide) (by decide)

/-- C4 (counterexample): in the state `oneFree` the frame `frameA` is page-aligned,
inside `[end, PHYSTOP)`, has count 0 and is the only entry of the free list.
`kfree(frameA)` returns, but the result is not the free list `frameA, frameA`:
the link of `frameA` now points to `frameA` itself, so the chain from the head
never ends and is no finite sequence at all. -/
theorem kfree_free_frame_self_link :
    xv6.WF ∧ frameA % 4096 = 0 ∧ xv6.kend ≤ frameA ∧ frameA < xv6.PHYSTOP ∧
    countOf xv6 oneFree frameA = 0 ∧
    FreeList xv6 oneFree.mem oneFree.freelist [frameA] ∧
    ∃ s', kfree xv6 frameA oneFree = Result.ok () s' ∧
      ¬ FreeList xv6 s'.mem s'.freelist (frameA :: [frameA]) ∧
      load64 s'.mem s'.freelist = s'.freelist ∧
      ∀ l, ¬ FreeList xv6 s'.mem s'.freelist l := by
  have hself : load64 (store64 (memset oneFree.mem frameA 1 PGSIZE) frameA oneFree.freelist)
      frameA = frameA := load64_store64 _ _ _ (by decide)
  refine ⟨by decide, by decide, by decide, by decide, by decide, by decide, _,
    kfree_reclaim xv6 (by decide) oneFree frameA (by decide) (by decide), ?_, hself, ?_⟩
  · exact FreeList_self_link xv6 _ frameA (by decide) hself _
  · exact FreeList_self_link xv6 _ frameA (by decide) hself

/-- C4 (amended): on a page-aligned address `pa` of `[end, PHYSTOP)` whose frame
has count 0 or 1, `kfree` returns, the count of the frame is 0 and every other
counter is unchanged; when `pa` is not already an entry of the free list `l`,
the resulting free list is `pa` followed by `l`. -/
theorem kfree_reclaim_contract (L : Layout) (hL : L.WF) (s : State) (pa : Nat)
    (ha : pa % 4096 = 0) (hk : L.kend ≤ pa) (hp : pa < L.PHYSTOP)
    (hn : s.page_refcount ((pa - L.KERNBASE) / 4096) ≤ 1) :
    ∃ s', kfree L pa s = Result.ok () s' ∧
      s'.page_refcount ((pa - L.KERNBASE) / 4096) = 0 ∧
      (∀ i, i ≠ (pa - L.KERNBASE) / 4096 → s'.page_refcount i = s.page_refcount i) ∧
      (∀ l, FreeList L s.mem s.freelist l → pa ∉ l →
        FreeList L s'.mem s'.freelist (pa :: l)) := by
  have hf : isFrame L pa := ⟨ha, hk, hp⟩
  refine ⟨_, kfree_reclaim L hL s pa hf hn, ?_, ?_, ?_⟩
  · simp [setCount, frameIndex, PGSIZE]
  · intro i hi
    simp [setCount, frameIndex, PGSIZE, hi]
  · intro l hl hnot
    exact FreeList_push L hL s.mem s.freelist pa l hf hnot hl

theorem kfree_reclaim_contract_witness :
    FreeList xv6 ownedA.mem ownedA.freelist [frameB] ∧
    ∃ s', kfree xv6 frameA ownedA = Result.ok () s' ∧
      s'.page_refcount ((frameA - xv6.KERNBASE) / 4096) = 0 ∧
      FreeList xv6 s'.mem s'.freelist [frameA, frameB] := by
  obtain ⟨s', h1, h2, _, h4⟩ := kfree_reclaim_contract xv6 (by decide) ownedA frameA
    (by decide) (by decide) (by decide) (by decide)
  exact ⟨by decide, s', h1, h2, h4 [frameB] (by decide) (by decide)⟩

/-- C5: in every state reached from `kinit` by calls of `kalloc`, `kfree`,
`add_ref` and `dec_ref`, the last three only on page-aligned addresses returned
earlier by `kalloc` with a current count of at least 1 (and no count reaching
`2^32 - 1`), the free list is a sequence `l` such that every seeded frame
satisfies exactly one of: it occurs exactly once in `l` and its count is 0; it
does not occur in `l` and its count is at least 1. Hence the length of `l` plus
the number of seeded frames with count at least 1 is the number of seeded
frames; the counters of all other frames are 0. -/
theorem reachable_frames_partition (L : Layout) (hL : L.WF) (s : State) (R : List Nat)
    (h : Reach L s R) :
    ∃ l, FreeList L s.mem s.freelist l ∧
      (∀ F ∈ seeded L,
        ((l.count F = 1 ∧ countOf L s F = 0) ∧ ¬ (F ∉ l ∧ 1 ≤ countOf L s F)) ∨
        ((F ∉ l ∧ 1 ≤ countOf L s F) ∧ ¬ (l.count F = 1 ∧ countOf L s F = 0))) ∧
      l.length + ((seeded L).filter (fun F => decide (1 ≤ countOf L s F))).length
        = (seeded L).length ∧
      (∀ i, (∀ F ∈ seeded L, frameIndex L F ≠ i) → s.page_refcount i = 0) := by
  obtain ⟨l, hI⟩ := Reach_Inv L hL s R h
  refine ⟨l, hI.list, ?_, Inv_count L hL s R l hI,
    fun i hi => hI.others_zero i (fun F hF => hi F ((mem_seeded L hL F).mpr hF))⟩
  intro F hF
  have hFf := (mem_seeded L hL F).mp hF
  by_cases hm : F ∈ l
  · left
    have hz := hI.free_zero F hm
    refine ⟨⟨List.count_eq_one_of_mem (FreeList_nodup L s.mem l _ hI.list) hm, hz⟩, ?_⟩
    rintro ⟨hn, _⟩
    exact hn hm
  · right
    have hp := hI.used_pos F hFf hm
    refine ⟨⟨hm, hp⟩, ?_⟩
    rintro ⟨_, hz⟩
    omega

theorem reachable_frames_partition_witness :
    ∃ s r s', kinit xv6 (boot (fun _ => 0)) = Result.ok () s ∧ kalloc xv6 s = Result.ok r s' ∧
      ∃ l, FreeList xv6 s'.mem s'.freelist l ∧
        (∀ F ∈ seeded xv6,
          ((l.count F = 1 ∧ countOf xv6 s' F = 0) ∧ ¬ (F ∉ l ∧ 1 ≤ countOf xv6 s' F)) ∨
          ((F ∉ l ∧ 1 ≤ countOf xv6 s' F) ∧ ¬ (l.count F = 1 ∧ countOf xv6 s' F = 0))) ∧
        l.length + ((seeded xv6).filter (fun F => decide (1 ≤ countOf xv6 s' F))).length
          = (seeded xv6).length ∧
        (∀ i, (∀ F ∈ seeded xv6, frameIndex xv6 F ≠ i) → s'.page_refcount i = 0) := by
  have hW : xv6.WF := by decide
  obtain ⟨s, r, s', e, e'⟩ := kinit_kalloc_returns xv6 hW (fun _ => 0)
  have hR : Reach xv6 s' (if r = 0 then [] else [r]) :=
    Reach.kalloc s s' [] r (Reach.init _ s e) e'
  exact ⟨s, r, s', e, e', reachable_frames_partition xv6 hW s' _ hR⟩

/-- C6: allocate-then-release round trip. When the free list is `F :: t` with `F`
page-aligned in `[end, PHYSTOP)`, `kalloc` returns `F` with count 1; the
following `kfree(F)` returns with the free list again `F :: t` (same head
pointer as before the `kalloc`) and the count of `F` at 0; and the next `kalloc`
returns `F` again, leaving `t`. -/
theorem alloc_release_round_trip (L : Layout) (hL : L.WF) (s : State) (F : Nat) (t : List Nat)
    (hl : FreeList L s.mem s.freelist (F :: t))
    (ha : F % 4096 = 0) (hk : L.kend ≤ F) (hp : F < L.PHYSTOP) :
    ∃ s1 s2 s3,
      kalloc L s = Result.ok F s1 ∧ s1.page_refcount ((F - L.KERNBASE) / 4096) = 1 ∧
      kfree L F s1 = Result.ok () s2 ∧
      FreeList L s2.mem s2.freelist (F :: t) ∧ s2.freelist = s.freelist ∧
      s2.page_refcount ((F - L.KERNBASE) / 4096) = 0 ∧
      kalloc L s2 = Result.ok F s3 ∧ FreeList L s3.mem s3.freelist t := by
  have hnot : F ∉ t := FreeList_head_not_mem L s.mem s.freelist F t hl
  have hf : isFrame L F := ⟨ha, hk, hp⟩
  have hK : L.KERNBASE ≤ F := le_trans hL.2.1 hk
  obtain ⟨e, h0, _, ht⟩ := hl
  subst e
  have e1 := kalloc_pop L hL s h0 hK hp
  have hl2 := FreeList_push L hL s.mem (load64 s.mem s.freelist) s.freelist t hf hnot ht
  refine ⟨_, _, _, e1, ?_, kfree_reclaim L hL _ _ hf ?_, hl2, rfl, ?_,
    kalloc_pop L hL _ h0 hK hp, hl2.2.2.2⟩
  · simp [setCount, frameIndex, PGSIZE]
  · simp [countOf, setCount]
  · simp [setCount, frameIndex, PGSIZE]

theorem alloc_release_round_trip_witness :
    ∃ s1 s2 s3,
      kalloc xv6 twoFree = Result.ok frameA s1 ∧
      s1.page_refcount ((frameA - xv6.KERNBASE) / 4096) = 1 ∧
      kfree xv6 frameA s1 = Result.ok () s2 ∧
      FreeList xv6 s2.mem s2.freelist (frameA :: [frameB]) ∧ s2.freelist = twoFree.freelist ∧
      s2.page_refcount ((frameA - xv6.KERNBASE) / 4096) = 0 ∧
      kalloc xv6 s2 = Result.ok frameA s3 ∧ FreeList xv6 s3.mem s3.freelist [frameB] :=
  alloc_release_round_trip xv6 (by decide) twoFree frameA [frameB] (by decide) (by decide)
    (by decide) (by decide)

/-- C7 (counterexample): in the state `ownedA` the frame `frameA` has count 1;
`dec_ref` on the address `frameA + 8` inside that frame (in range, not
page-aligned) brings the count to 0, calls `kfree` and halts in `panic("kfree")`. -/
theorem dec_ref_unaligned_last_owner_halts :
    xv6.KERNBASE ≤ frameA + 8 ∧ frameA + 8 < xv6.PHYSTOP ∧ (frameA + 8) % 4096 ≠ 0 ∧
    countOf xv6 ownedA (frameA + 8) = 1 ∧
    ∃ s', dec_ref xv6 (frameA + 8) ownedA = Result.panic "kfree" s' := by
  have h : dec_ref xv6 (frameA + 8) ownedA =
      Result.panic "kfree" (acquire Lock.ref_lock (decremented xv6 ownedA (frameA + 8))) := by
    rw [dec_ref_in_range xv6 (by decide) ownedA (frameA + 8) (by decide) (by decide),
      if_pos (by decide)]
    exact kfree_panic xv6 (by decide) _ (frameA + 8) (by decide) (by decide)
      (by rw [countOf_decremented]; decide) (Or.inl (by decide))
  exact ⟨by decide, by decide, by decide, by decide, _, h⟩

/-- C7 (amended): `dec_ref` either returns or halts in `panic("kfree")`, and it
halts exactly when the address lies in `[KERNBASE, PHYSTOP)`, the count of its
frame is 1 (the decrement reaches 0, so `kfree` is called) and the address is
not page-aligned or lies below `end`. For every other address and count,
out-of-range addresses included, it completes without halting. -/
theorem dec_ref_halts_iff (L : Layout) (hL : L.WF) (s : State) (pa : Nat)
    (h32 : s.page_refcount ((pa - L.KERNBASE) / 4096) < 2 ^ 32) :
    ((∃ s', dec_ref L pa s = Result.ok () s') ∨
      (∃ s', dec_ref L pa s = Result.panic "kfree" s')) ∧
    ((∃ s', dec_ref L pa s = Result.panic "kfree" s') ↔
      (L.KERNBASE ≤ pa ∧ pa < L.PHYSTOP ∧ s.page_refcount ((pa - L.KERNBASE) / 4096) = 1 ∧
        (pa % 4096 ≠ 0 ∨ pa < L.kend))) := by
  have h32' : countOf L s pa < 2 ^ 32 := h32
  have hcount : s.page_refcount ((pa - L.KERNBASE) / 4096) = countOf L s pa := rfl
  rw [hcount]
  by_cases hr : pa < L.KERNBASE ∨ L.PHYSTOP ≤ pa
  · rw [dec_ref_out_of_range L s pa hr]
    refine ⟨Or.inl ⟨s, rfl⟩, ?_, ?_⟩
    · rintro ⟨s', h⟩; cases h
    · rintro ⟨h1, h2, _, _⟩; omega
  · have h1 : L.KERNBASE ≤ pa := by omega
    have h2 : pa < L.PHYSTOP := by omega
    by_cases hc : countOf L s pa = 1
    · have hz : u32dec (countOf L s pa) = 0 := (u32dec_eq_zero_iff _ h32').mpr hc
      have hd : countOf L (decremented L s pa) pa ≤ 1 := by
        rw [countOf_decremented, hz]; exact Nat.zero_le 1
      rw [dec_ref_in_range L hL s pa h1 h2, if_pos hz]
      by_cases hbad : pa % PGSIZE ≠ 0 ∨ pa < L.kend
      · rw [kfree_panic L hL _ pa h1 h2 hd hbad]
        exact ⟨Or.inr ⟨_, rfl⟩, fun _ => ⟨h1, h2, hc, hbad⟩, fun _ => ⟨_, rfl⟩⟩
      · have hf : isFrame L pa := by
          unfold isFrame
          omega
        rw [kfree_reclaim L hL _ pa hf hd]
        refine ⟨Or.inl ⟨_, rfl⟩, ?_, ?_⟩
        · rintro ⟨s', h⟩; cases h
        · rintro ⟨_, _, _, hb⟩; exact absurd hb hbad
    · have hz : u32dec (countOf L s pa) ≠ 0 := fun h => hc ((u32dec_eq_zero_iff _ h32').mp h)
      rw [dec_ref_more L hL s pa h1 h2 hz]
      refine ⟨Or.inl ⟨_, rfl⟩, ?_, ?_⟩
      · rintro ⟨s', h⟩; cases h
      · rintro ⟨_, _, hc', _⟩; exact absurd hc' hc

theorem dec_ref_halts_iff_witness :
    ((∃ s', dec_ref xv6 frameA ownedA = Result.ok () s') ∨
      (∃ s', dec_ref xv6 frameA ownedA = Result.panic "kfree" s')) ∧
    ((∃ s', dec_ref xv6 frameA ownedA = Result.panic "kfree" s') ↔
      (xv6.KERNBASE ≤ frameA ∧ frameA < xv6.PHYSTOP ∧
        ownedA.page_refcount ((frameA - xv6.KERNBASE) / 4096) = 1 ∧
        (frameA % 4096 ≠ 0 ∨ frameA < xv6.kend))) :=
  dec_ref_halts_iff xv6 (by decide) ownedA frameA (by decide)

/-- C8 (counterexample): in the state `freeCounted` the page-aligned frame
`frameA` of `[end, PHYSTOP)` has count 1 and is the entry of the free list.
`dec_ref(frameA)` returns with count 0, but the result is not the free list
`frameA` followed by the previous free list: the link of `frameA` points to
`frameA` itself and the chain from the head is no finite sequence. -/
theorem dec_ref_listed_frame_self_link :
    xv6.WF ∧ frameA % 4096 = 0 ∧ xv6.kend ≤ frameA ∧ frameA < xv6.PHYSTOP ∧
    countOf xv6 freeCounted frameA = 1 ∧
    FreeList xv6 freeCounted.mem freeCounted.freelist [frameA] ∧
    ∃ s', dec_ref xv6 frameA freeCounted = Result.ok () s' ∧
      countOf xv6 s' frameA = 0 ∧
      ¬ FreeList xv6 s'.mem s'.freelist (frameA :: [frameA]) ∧
      ∀ l, ¬ FreeList xv6 s'.mem s'.freelist l := by
  have hself : load64 (store64 (memset freeCounted.mem frameA 1 PGSIZE) frameA
      freeCounted.freelist) frameA = frameA := load64_store64 _ _ _ (by decide)
  refine ⟨by decide, by decide, by decide, by decide, by decide, by decide, _,
    dec_ref_last xv6 (by decide) freeCounted frameA (by decide) (by decide), ?_, ?_, ?_⟩
  · simp [countOf, setCount]
  · exact FreeList_self_link xv6 _ frameA (by decide) hself _
  · exact FreeList_self_link xv6 _ frameA (by decide) hself

/-- C8 (amended): on a page-aligned address `pa` of `[end, PHYSTOP)` whose frame
has count `n ≥ 1`, `dec_ref` returns, the count is `n - 1` and every other
counter is unchanged; if `n - 1 > 0` the free list and memory are unchanged; if
`n - 1 = 0` and `pa` is not already an entry of the free list `l`, the
resulting free list is `pa` followed by `l` (with the count at 0). -/
theorem dec_ref_contract (L : Layout) (hL : L.WF) (s : State) (pa n : Nat)
    (ha : pa % 4096 = 0) (hk : L.kend ≤ pa) (hp : pa < L.PHYSTOP)
    (hc : s.page_refcount ((pa - L.KERNBASE) / 4096) = n) (hn : 1 ≤ n) (h32 : n < 2 ^ 32) :
    ∃ s', dec_ref L pa s = Result.ok () s' ∧
      s'.page_refcount ((pa - L.KERNBASE) / 4096) = n - 1 ∧
      (∀ i, i ≠ (pa - L.KERNBASE) / 4096 → s'.page_refcount i = s.page_refcount i) ∧
      (0 < n - 1 → s'.freelist = s.freelist ∧ s'.mem = s.mem) ∧
      (n - 1 = 0 → ∀ l, FreeList L s.mem s.freelist l → pa ∉ l →
        FreeList L s'.mem s'.freelist (pa :: l)) := by
  have hf : isFrame L pa := ⟨ha, hk, hp⟩
  have h1 : L.KERNBASE ≤ pa := le_trans hL.2.1 hk
  have hc' : countOf L s pa = n := hc
  by_cases h : n = 1
  · subst h
    refine ⟨_, dec_ref_last L hL s pa hf hc', ?_, ?_, ?_, ?_⟩
    · simp [setCount, frameIndex, PGSIZE]
    · intro i hi
      simp [setCount, frameIndex, PGSIZE, hi]
    · intro h0; omega
    · intro _ l hl hnot
      exact FreeList_push L hL s.mem s.freelist pa l hf hnot hl
  · have hd : u32dec (countOf L s pa) = n - 1 := by
      rw [hc']; exact u32dec_of_pos n (by omega) h32
    refine ⟨_, dec_ref_more L hL s pa h1 hp (by rw [hd]; omega), ?_, ?_, ?_, ?_⟩
    · simp [decremented, setCount, frameIndex, PGSIZE, hd]
    · intro i hi
      simp [decremented, setCount, frameIndex, PGSIZE, hi]
    · intro _; exact ⟨rfl, rfl⟩
    · intro h0; omega

theorem dec_ref_contract_witness :
    FreeList xv6 ownedA.mem ownedA.freelist [frameB] ∧
    ∃ s', dec_ref xv6 frameA ownedA = Result.ok () s' ∧
      s'.page_refcount ((frameA - xv6.KERNBASE) / 4096) = 1 - 1 ∧
      FreeList xv6 s'.mem s'.freelist [frameA, frameB] := by
  obtain ⟨s', h1, h2, _, _, h5⟩ := dec_ref_contract xv6 (by decide) ownedA frameA 1
    (by decide) (by decide) (by decide) (by decide) (by decide) (by decide)
  exact ⟨by decide, s', h1, h2, h5 (by decide) [frameB] (by decide) (by decide)⟩

/-- C9: on an address of `[KERNBASE, PHYSTOP)`, `add_ref` returns (it never
halts), `page_refcount[(pa - KERNBASE)/4096]` is its old value plus 1 modulo
`2^32`, and every other counter, the free list (head and links) and every byte
of memory are unchanged. -/
theorem add_ref_contract (L : Layout) (hL : L.WF) (s : State) (pa : Nat)
    (h1 : L.KERNBASE ≤ pa) (h2 : pa < L.PHYSTOP) :
    ∃ s', add_ref L pa s = Result.ok () s' ∧
      s'.page_refcount ((pa - L.KERNBASE) / 4096) =
        (s.page_refcount ((pa - L.KERNBASE) / 4096) + 1) % 2 ^ 32 ∧
      (∀ i, i ≠ (pa - L.KERNBASE) / 4096 → s'.page_refcount i = s.page_refcount i) ∧
      s'.freelist = s.freelist ∧ s'.mem = s.mem ∧
      (∀ l, FreeList L s'.mem s'.freelist l ↔ FreeList L s.mem s.freelist l) := by
  refine ⟨_, add_ref_in_range L hL s pa h1 h2, ?_, ?_, rfl, rfl, fun l => Iff.rfl⟩
  · simp [setCount, frameIndex, PGSIZE, countOf, u32inc]
  · intro i hi
    simp [setCount, frameIndex, PGSIZE, hi]

theorem add_ref_contract_witness :
    ∃ s', add_ref xv6 frameA ownedA = Result.ok () s' ∧
      s'.page_refcount ((frameA - xv6.KERNBASE) / 4096) =
        (ownedA.page_refcount ((frameA - xv6.KERNBASE) / 4096) + 1) % 2 ^ 32 ∧
      (∀ i, i ≠ (frameA - xv6.KERNBASE) / 4096 → s'.page_refcount i = ownedA.page_refcount i) ∧
      s'.freelist = ownedA.freelist ∧ s'.mem = ownedA.mem ∧
      (∀ l, FreeList xv6 s'.mem s'.freelist l ↔ FreeList xv6 ownedA.mem ownedA.freelist l) :=
  add_ref_contract xv6 (by decide) ownedA frameA (by decide) (by decide)

/-- C10: on an address below `KERNBASE` or at or above `PHYSTOP`, both `add_ref`
and `dec_ref` return without halting and the state they return is the state
they were called in: counters, free list and memory are all unchanged. -/
theorem ref_ops_ignore_out_of_range (L : Layout) (s : State) (pa : Nat)
    (h : pa < L.KERNBASE ∨ pa ≥ L.PHYSTOP) :
    add_ref L pa s = Result.ok () s ∧ dec_ref L pa s = Result.ok () s :=
  ⟨add_ref_out_of_range L s pa h, dec_ref_out_of_range L s pa h⟩

theorem ref_ops_ignore_out_of_range_witness :
    add_ref xv6 0x88000000 ownedA = Result.ok () ownedA ∧
    dec_ref xv6 0x88000000 ownedA = Result.ok () ownedA :=
  ref_ops_ignore_out_of_range xv6 ownedA 0x88000000 (Or.inr (by decide))

/-! ## The index function and the bounds of the table -/

/-- C11: `pa_index` depends on its argument only. On `[KERNBASE, PHYSTOP)` it is
`(pa - KERNBASE) / 4096`, elsewhere it is `-1`; every result other than `-1`
lies in `[0, MAX_PAGES)`; and two addresses have the same non-negative index
exactly when both lie in `[KERNBASE, PHYSTOP)` in the same 4096-byte frame. -/
theorem pa_index_contract (L : Layout) (hL : L.WF) (pa pa' : Nat) :
    (L.KERNBASE ≤ pa ∧ pa < L.PHYSTOP →
      pa_index L pa = (((pa - L.KERNBASE) / 4096 : Nat) : Int)) ∧
    (pa < L.KERNBASE ∨ pa ≥ L.PHYSTOP → pa_index L pa = -1) ∧
    (pa_index L pa ≠ -1 → 0 ≤ pa_index L pa ∧ pa_index L pa < ((MAX_PAGES L : Nat) : Int)) ∧
    MAX_PAGES L = (L.PHYSTOP - L.KERNBASE) / 4096 ∧
    ((0 ≤ pa_index L pa ∧ pa_index L pa = pa_index L pa') ↔
      (L.KERNBASE ≤ pa ∧ pa < L.PHYSTOP ∧ L.KERNBASE ≤ pa' ∧ pa' < L.PHYSTOP ∧
        pa / 4096 = pa' / 4096)) := by
  have hK : L.KERNBASE % 4096 = 0 := hL.2.2.2.2.1
  have hin : ∀ a, L.KERNBASE ≤ a → a < L.PHYSTOP →
      pa_index L a = (((a - L.KERNBASE) / 4096 : Nat) : Int) :=
    fun a h1 h2 => pa_index_in_range L hL a h1 h2
  have hout : ∀ a, a < L.KERNBASE ∨ L.PHYSTOP ≤ a → pa_index L a = -1 :=
    fun a h => pa_index_out_of_range L a h
  refine ⟨fun h => hin pa h.1 h.2, fun h => hout pa h, ?_, rfl, ?_⟩
  · intro hne
    by_cases hr : pa < L.KERNBASE ∨ L.PHYSTOP ≤ pa
    · exact absurd (hout pa hr) hne
    · have h1 : L.KERNBASE ≤ pa := by omega
      have h2 : pa < L.PHYSTOP := by omega
      have hlt := frameIndex_lt L hL pa h1 h2
      rw [hin pa h1 h2]
      unfold frameIndex at hlt
      simp only [PGSIZE] at hlt
      omega
  · constructor
    · rintro ⟨h0, he⟩
      by_cases hr : pa < L.KERNBASE ∨ L.PHYSTOP ≤ pa
      · rw [hout pa hr] at h0
        omega
      · have h1 : L.KERNBASE ≤ pa := by omega
        have h2 : pa < L.PHYSTOP := by omega
        by_cases hr' : pa' < L.KERNBASE ∨ L.PHYSTOP ≤ pa'
        · rw [hout pa' hr', hin pa h1 h2] at he
          omega
        · have h1' : L.KERNBASE ≤ pa' := by omega
          have h2' : pa' < L.PHYSTOP := by omega
          rw [hin pa h1 h2, hin pa' h1' h2'] at he
          refine ⟨h1, h2, h1', h2', ?_⟩
          omega
    · rintro ⟨h1, h2, h1', h2', he⟩
      rw [hin pa h1 h2, hin pa' h1' h2']
      refine ⟨by omega, ?_⟩
      have : (pa - L.KERNBASE) / 4096 = (pa' - L.KERNBASE) / 4096 := by omega
      rw [this]

theorem pa_index_contract_witness :
    (xv6.KERNBASE ≤ frameA + 8 ∧ frameA + 8 < xv6.PHYSTOP →
      pa_index xv6 (frameA + 8) = ((((frameA + 8) - xv6.KERNBASE) / 4096 : Nat) : Int)) ∧
    (frameA + 8 < xv6.KERNBASE ∨ frameA + 8 ≥ xv6.PHYSTOP → pa_index xv6 (frameA + 8) = -1) ∧
    (pa_index xv6 (frameA + 8) ≠ -1 →
      0 ≤ pa_index xv6 (frameA + 8) ∧ pa_index xv6 (frameA + 8) < ((MAX_PAGES xv6 : Nat) : Int)) ∧
    MAX_PAGES xv6 = (xv6.PHYSTOP - xv6.KERNBASE) / 4096 ∧
    ((0 ≤ pa_index xv6 (frameA + 8) ∧ pa_index xv6 (frameA + 8) = pa_index xv6 frameA) ↔
      (xv6.KERNBASE ≤ frameA + 8 ∧ frameA + 8 < xv6.PHYSTOP ∧ xv6.KERNBASE ≤ frameA ∧
        frameA < xv6.PHYSTOP ∧ (frameA + 8) / 4096 = frameA / 4096)) :=
  pa_index_contract xv6 (by decide) (frameA + 8) frameA

/-- C12 (the code at a failing input): `0x88000000` is `PHYSTOP` of the xv6
layout, outside `[KERNBASE, PHYSTOP)`, so `pa_index` returns `-1`; `kfree` uses
that value as an index of `page_refcount` before it validates the address, and
so does it for an address below `KERNBASE`, while `add_ref` and `dec_ref` at the
same addresses return without touching the table. -/
theorem kfree_indexes_before_validation :
    pa_index xv6 0x88000000 = -1 ∧ ¬ inTable xv6 (-1) ∧
    kfree xv6 0x88000000 ownedA = Result.fault (-1) (acquire Lock.ref_lock ownedA) ∧
    kfree xv6 0x7ffff000 ownedA = Result.fault (-1) (acquire Lock.ref_lock ownedA) ∧
    add_ref xv6 0x88000000 ownedA = Result.ok () ownedA ∧
    dec_ref xv6 0x88000000 ownedA = Result.ok () ownedA :=
  ⟨by decide, by decide, kfree_out_of_range xv6 ownedA 0x88000000 (Or.inr (by decide)),
    kfree_out_of_range xv6 ownedA 0x7ffff000 (Or.inl (by decide)),
    add_ref_out_of_range xv6 ownedA 0x88000000 (Or.inr (by decide)),
    dec_ref_out_of_range xv6 ownedA 0x88000000 (Or.inr (by decide))⟩

/-! ## Seeding and exhaustion -/

/-- C13: for `end ≤ pa_start ≤ pa_end ≤ PHYSTOP`, `freerange(pa_start, pa_end)` on a
state with an empty free list and all counters 0 returns (it does not halt); the
resulting free list `l` contains exactly the addresses
`p = roundup(pa_start, 4096) + 4096 k` with `p + 4096 ≤ pa_end`, each once, in
decreasing order from the head; every counter is still 0; and the call is the
sequence of `kfree` calls on these frames in increasing order. -/
theorem freerange_contract (L : Layout) (hL : L.WF) (s : State) (pa_start pa_end : Nat)
    (h1 : L.kend ≤ pa_start) (h2 : pa_start ≤ pa_end) (h3 : pa_end ≤ L.PHYSTOP)
    (he : s.freelist = 0) (hz : ∀ i, s.page_refcount i = 0) :
    ∃ s' l, freerange L pa_start pa_end s = Result.ok () s' ∧
      FreeList L s'.mem s'.freelist l ∧
      (∀ F, F ∈ l ↔ ∃ k, F = (pa_start + 4095) / 4096 * 4096 + 4096 * k ∧ F + 4096 ≤ pa_end) ∧
      l.Nodup ∧ l.Pairwise (fun a b => a > b) ∧
      (∀ i, s'.page_refcount i = 0) ∧
      freerange L pa_start pa_end s = kfreeEach L l.reverse s := by
  have h64 : pa_start + PGSIZE ≤ 2 ^ 64 := by
    have := hL.2.2.2.1
    omega
  obtain ⟨s', e, hl, hz'⟩ := freerange_spec L hL s pa_start pa_end h1 (le_trans h2 h3) h3 he hz
  refine ⟨s', _, e, hl, ?_, ?_, ?_, hz', ?_⟩
  · intro F
    rw [List.mem_reverse, mem_framesFrom, PGROUNDUP_eq pa_start h64]
    simp only [PGSIZE]
    constructor
    · rintro ⟨k, hk, e⟩
      have hk' : k + 1 ≤ (pa_end - (pa_start + 4095) / 4096 * 4096) / 4096 := hk
      rw [Nat.le_div_iff_mul_le (by norm_num)] at hk'
      exact ⟨k, e, by omega⟩
    · rintro ⟨k, e, hle⟩
      refine ⟨k, ?_, e⟩
      show k + 1 ≤ (pa_end - (pa_start + 4095) / 4096 * 4096) / 4096
      rw [Nat.le_div_iff_mul_le (by norm_num)]
      omega
  · exact List.nodup_reverse.mpr (framesFrom_nodup _ _)
  · rw [List.pairwise_reverse]
    exact framesFrom_lt _ _
  · rw [List.reverse_reverse]
    exact freerangeLoop_eq_kfreeEach L pa_end _ _ s rfl

theorem freerange_contract_witness :
    ∃ s' l, freerange xv6 0x87ffd800 0x88000000 (boot (fun _ => 0)) = Result.ok () s' ∧
      FreeList xv6 s'.mem s'.freelist l ∧
      (∀ F, F ∈ l ↔
        ∃ k, F = (0x87ffd800 + 4095) / 4096 * 4096 + 4096 * k ∧ F + 4096 ≤ 0x88000000) ∧
      l.Nodup ∧ l.Pairwise (fun a b => a > b) ∧
      (∀ i, s'.page_refcount i = 0) ∧
      freerange xv6 0x87ffd800 0x88000000 (boot (fun _ => 0)) =
        kfreeEach xv6 l.reverse (boot (fun _ => 0)) :=
  freerange_contract xv6 (by decide) (boot (fun _ => 0)) 0x87ffd800 0x88000000
    (by decide) (by decide) (by decide) rfl (fun _ => rfl)

/-- C14: exhaustion. After `freerange(pa_start, pa_end)` (with
`end ≤ pa_start ≤ pa_end ≤ PHYSTOP`, from an empty free list and all counters 0)
has seeded the pool with its `N` frames, the first `N` calls of `kalloc` return
`N` pairwise distinct, non-null, page-aligned addresses inside the range, each
with count 1 afterwards, and call `N + 1` returns 0. -/
theorem kalloc_exhaustion (L : Layout) (hL : L.WF) (s : State) (pa_start pa_end : Nat)
    (h1 : L.kend ≤ pa_start) (h2 : pa_start ≤ pa_end) (h3 : pa_end ≤ L.PHYSTOP)
    (he : s.freelist = 0) (hz : ∀ i, s.page_refcount i = 0) :
    ∃ s0 l s1 s2, freerange L pa_start pa_end s = Result.ok () s0 ∧
      FreeList L s0.mem s0.freelist l ∧
      l.length = (pa_end - (pa_start + 4095) / 4096 * 4096) / 4096 ∧
      kallocs L l.length s0 = Result.ok l s1 ∧
      l.Nodup ∧
      (∀ F ∈ l, F ≠ 0 ∧ F % 4096 = 0 ∧ pa_start ≤ F ∧ F + 4096 ≤ pa_end ∧
        s1.page_refcount ((F - L.KERNBASE) / 4096) = 1) ∧
      kalloc L s1 = Result.ok 0 s2 := by
  have h64 : pa_start + PGSIZE ≤ 2 ^ 64 := by
    have := hL.2.2.2.1
    omega
  obtain ⟨s0, e0, hl, _⟩ := freerange_spec L hL s pa_start pa_end h1 (le_trans h2 h3) h3 he hz
  obtain ⟨s1, e1, hd, _, hc, _⟩ := kallocs_drain L hL _ s0 hl
  refine ⟨s0, _, s1, _, e0, hl, ?_, e1, FreeList_nodup L s0.mem _ _ hl, ?_, kalloc_empty L s1 hd⟩
  · rw [List.length_reverse, framesFrom_length, PGROUNDUP_eq pa_start h64]
    rfl
  · intro F hF
    have hFf := FreeList_isFrame L s0.mem _ _ hl F hF
    have hF0 : F ≠ 0 := by
      have := hL.1; have := hL.2.1; have := hFf.2.1; omega
    rw [List.mem_reverse, mem_framesFrom, PGROUNDUP_eq pa_start h64] at hF
    obtain ⟨k, hk, e⟩ := hF
    have hk' : k + 1 ≤ (pa_end - (pa_start + 4095) / 4096 * 4096) / 4096 := hk
    rw [Nat.le_div_iff_mul_le (by norm_num)] at hk'
    simp only [PGSIZE] at e
    exact ⟨hF0, hFf.1, by omega, by omega, hc F (by
      rw [List.mem_reverse, mem_framesFrom, PGROUNDUP_eq pa_start h64]
      exact ⟨k, hk, e⟩)⟩

theorem kalloc_exhaustion_witness :
    ∃ s0 l s1 s2, freerange xv6 0x87ffd800 0x88000000 (boot (fun _ => 0)) = Result.ok () s0 ∧
      FreeList xv6 s0.mem s0.freelist l ∧
      l.length = (0x88000000 - (0x87ffd800 + 4095) / 4096 * 4096) / 4096 ∧
      kallocs xv6 l.length s0 = Result.ok l s1 ∧
      l.Nodup ∧
      (∀ F ∈ l, F ≠ 0 ∧ F % 4096 = 0 ∧ 0x87ffd800 ≤ F ∧ F + 4096 ≤ 0x88000000 ∧
        s1.page_refcount ((F - xv6.KERNBASE) / 4096) = 1) ∧
      kalloc xv6 s1 = Result.ok 0 s2 :=
  kalloc_exhaustion xv6 (by decide) (boot (fun _ => 0)) 0x87ffd800 0x88000000
    (by decide) (by decide) (by decide) rfl (fun _ => rfl)

/-! ## Scenarios -/

/-- C15: sharing scenario. From a free list `F :: t` with `F` page-aligned in
`[end, PHYSTOP)`: `kalloc` returns `F` with count 1; two `add_ref(F)` make the
count 3; `kfree(F)` makes it 2 and leaves the free list as it was right after
the `kalloc`; the first `dec_ref(F)` makes it 1, the free list still unchanged;
the second `dec_ref(F)` makes it 0 and puts `F` at the head of the free list. -/
theorem sharing_scenario (L : Layout) (hL : L.WF) (s : State) (F : Nat) (t : List Nat)
    (hl : FreeList L s.mem s.freelist (F :: t))
    (ha : F % 4096 = 0) (hk : L.kend ≤ F) (hp : F < L.PHYSTOP) :
    ∃ s1 s2 s3 s4 s5 s6,
      kalloc L s = Result.ok F s1 ∧ countOf L s1 F = 1 ∧ FreeList L s1.mem s1.freelist t ∧
      add_ref L F s1 = Result.ok () s2 ∧ add_ref L F s2 = Result.ok () s3 ∧
      countOf L s3 F = 3 ∧
      kfree L F s3 = Result.ok () s4 ∧ countOf L s4 F = 2 ∧
      s4.freelist = s1.freelist ∧ s4.mem = s1.mem ∧ FreeList L s4.mem s4.freelist t ∧
      dec_ref L F s4 = Result.ok () s5 ∧ countOf L s5 F = 1 ∧
      s5.freelist = s1.freelist ∧ s5.mem = s1.mem ∧ FreeList L s5.mem s5.freelist t ∧
      dec_ref L F s5 = Result.ok () s6 ∧ countOf L s6 F = 0 ∧
      s6.freelist = F ∧ FreeList L s6.mem s6.freelist (F :: t) := by
  have hf : isFrame L F := ⟨ha, hk, hp⟩
  have hK : L.KERNBASE ≤ F := le_trans hL.2.1 hk
  have hnot : F ∉ t := FreeList_head_not_mem L s.mem s.freelist F t hl
  have ht : FreeList L s.mem (load64 s.mem F) t := hl.2.2.2
  obtain ⟨s1, e1, c1, f1, m1⟩ := kalloc_step L hL s F t hl
  obtain ⟨s2, e2, c2, f2, m2⟩ := add_ref_step L hL s1 F hK hp
  obtain ⟨s3, e3, c3, f3, m3⟩ := add_ref_step L hL s2 F hK hp
  have c3' : countOf L s3 F = 3 := by rw [c3, c2, c1]; decide
  obtain ⟨s4, e4, c4, f4, m4⟩ := kfree_shared_step L hL s3 F hK hp (by rw [c3']; decide)
  have c4' : countOf L s4 F = 2 := by rw [c4, c3']; decide
  obtain ⟨s5, e5, c5, f5, m5⟩ := dec_ref_more_step L hL s4 F hK hp (by rw [c4']; decide)
  have c5' : countOf L s5 F = 1 := by rw [c5, c4']; decide
  obtain ⟨s6, e6, c6, f6, m6⟩ := dec_ref_last_step L hL s5 F hf c5'
  have hf4 : s4.freelist = s1.freelist := by rw [f4, f3, f2]
  have hm4 : s4.mem = s1.mem := by rw [m4, m3, m2]
  have hf5 : s5.freelist = s1.freelist := by rw [f5, hf4]
  have hm5 : s5.mem = s1.mem := by rw [m5, hm4]
  have ht1 : FreeList L s1.mem s1.freelist t := by rw [m1, f1]; exact ht
  refine ⟨s1, s2, s3, s4, s5, s6, e1, c1, ht1, e2, e3, c3', e4, c4', hf4, hm4, ?_,
    e5, c5', hf5, hm5, ?_, e6, c6, f6, ?_⟩
  · rw [hm4, hf4]; exact ht1
  · rw [hm5, hf5]; exact ht1
  · rw [m6, f6, hm5, hf5]
    exact FreeList_push L hL s1.mem s1.freelist F t hf hnot ht1

theorem sharing_scenario_witness :
    ∃ s1 s2 s3 s4 s5 s6,
      kalloc xv6 twoFree = Result.ok frameA s1 ∧ countOf xv6 s1 frameA = 1 ∧
      FreeList xv6 s1.mem s1.freelist [frameB] ∧
      add_ref xv6 frameA s1 = Result.ok () s2 ∧ add_ref xv6 frameA s2 = Result.ok () s3 ∧
      countOf xv6 s3 frameA = 3 ∧
      kfree xv6 frameA s3 = Result.ok () s4 ∧ countOf xv6 s4 frameA = 2 ∧
      s4.freelist = s1.freelist ∧ s4.mem = s1.mem ∧ FreeList xv6 s4.mem s4.freelist [frameB] ∧
      dec_ref xv6 frameA s4 = Result.ok () s5 ∧ countOf xv6 s5 frameA = 1 ∧
      s5.freelist = s1.freelist ∧ s5.mem = s1.mem ∧ FreeList xv6 s5.mem s5.freelist [frameB] ∧
      dec_ref xv6 frameA s5 = Result.ok () s6 ∧ countOf xv6 s6 frameA = 0 ∧
      s6.freelist = frameA ∧ FreeList xv6 s6.mem s6.freelist (frameA :: [frameB]) :=
  sharing_scenario xv6 (by decide) twoFree frameA [frameB] (by decide) (by decide) (by decide)
    (by decide)

/-- C16 (counterexample): in the state `ownedA` the page-aligned frame `frameA` of
`[end, PHYSTOP)` has count 1 and the free list starts at `frameB`. After
`kfree(frameA)`, and likewise after `dec_ref(frameA)`, the frame is reclaimed
but its first byte, read back from memory, is 0 (the low byte of the link to
`frameB`), not the sentinel 1. -/
theorem reclaimed_frame_first_byte_not_sentinel :
    frameA % 4096 = 0 ∧ xv6.kend ≤ frameA ∧ frameA < xv6.PHYSTOP ∧
    countOf xv6 ownedA frameA = 1 ∧
    (∃ s', kfree xv6 frameA ownedA = Result.ok () s' ∧ s'.freelist = frameA ∧
      s'.mem frameA = 0 ∧ s'.mem frameA ≠ 1) ∧
    (∃ s', dec_ref xv6 frameA ownedA = Result.ok () s' ∧ s'.freelist = frameA ∧
      s'.mem frameA = 0 ∧ s'.mem frameA ≠ 1) := by
  have hb : store64 (memset ownedA.mem frameA 1 PGSIZE) frameA ownedA.freelist frameA = 0 := by
    have h := reclaimed_bytes_link ownedA.mem frameA ownedA.freelist 0 (by decide)
    rw [Nat.add_zero] at h
    rw [h]
    decide
  refine ⟨by decide, by decide, by decide, by decide,
    ⟨_, kfree_reclaim xv6 (by decide) ownedA frameA (by decide) (by decide), rfl, hb, ?_⟩,
    ⟨_, dec_ref_last xv6 (by decide) ownedA frameA (by decide) (by decide), rfl, hb, ?_⟩⟩
  · show store64 (memset ownedA.mem frameA 1 PGSIZE) frameA ownedA.freelist frameA ≠ 1
    rw [hb]; decide
  · show store64 (memset ownedA.mem frameA 1 PGSIZE) frameA ownedA.freelist frameA ≠ 1
    rw [hb]; decide

/-- C16 (amended): after `kfree(pa)` has reclaimed a page-aligned frame of
`[end, PHYSTOP)` with count at most 1, each byte of the frame at offsets 8 to
4095 is the sentinel 1, the first 8 bytes are the bytes of the link to the
previous head of the free list (lowest byte first), so nothing of the prior
contents of the frame remains, and no byte outside the frame is changed; a
`dec_ref(pa)` on count 1 leaves the same memory. -/
theorem reclaim_poisons_behind_link (L : Layout) (hL : L.WF) (s : State) (pa : Nat)
    (ha : pa % 4096 = 0) (hk : L.kend ≤ pa) (hp : pa < L.PHYSTOP)
    (hn : s.page_refcount ((pa - L.KERNBASE) / 4096) ≤ 1) :
    ∃ s', kfree L pa s = Result.ok () s' ∧
      (∀ a, pa + 8 ≤ a → a < pa + 4096 → s'.mem a = 1) ∧
      (∀ i, i < 8 → s'.mem (pa + i) = (s.freelist / 256 ^ i) % 256) ∧
      (∀ a, a < pa ∨ pa + 4096 ≤ a → s'.mem a = s.mem a) ∧
      (s.page_refcount ((pa - L.KERNBASE) / 4096) = 1 →
        ∃ s'', dec_ref L pa s = Result.ok () s'' ∧ s''.mem = s'.mem) := by
  have hf : isFrame L pa := ⟨ha, hk, hp⟩
  exact ⟨_, kfree_reclaim L hL s pa hf hn,
    fun a h1 h2 => reclaimed_bytes_fill s.mem pa s.freelist a h1 h2,
    fun i hi => reclaimed_bytes_link s.mem pa s.freelist i hi,
    fun a h => reclaimed_bytes_outside s.mem pa s.freelist a h,
    fun hc => ⟨_, dec_ref_last L hL s pa hf hc, rfl⟩⟩

theorem reclaim_poisons_behind_link_witness :
    ∃ s', kfree xv6 frameA ownedA = Result.ok () s' ∧
      (∀ a, frameA + 8 ≤ a → a < frameA + 4096 → s'.mem a = 1) ∧
      (∀ i, i < 8 → s'.mem (frameA + i) = (ownedA.freelist / 256 ^ i) % 256) ∧
      (∀ a, a < frameA ∨ frameA + 4096 ≤ a → s'.mem a = ownedA.mem a) ∧
      (ownedA.page_refcount ((frameA - xv6.KERNBASE) / 4096) = 1 →
        ∃ s'', dec_ref xv6 frameA ownedA = Result.ok () s'' ∧ s''.mem = s'.mem) :=
  reclaim_poisons_behind_link xv6 (by decide) ownedA frameA (by decide) (by decide) (by decide)
    (by decide)

/-! ## Locks -/

/-- C17: lock discipline. For every state, in which the caller holds neither
lock, and every address, the lock calls that a single call of `kalloc`,
`kfree`, `add_ref` or `dec_ref` adds to the log never hold `kmem.lock` and
`ref_lock.lock` at the same time, never acquire a lock that is held, and leave
both locks released on every path that returns. The first two hold as well on
the paths that end in `panic` and, for a call that indexes `page_refcount`
outside the table (`kfree` on an address outside `[KERNBASE, PHYSTOP)`), for
the lock calls made up to that access. -/
theorem lock_discipline (L : Layout) (s : State) (pa : Nat) :
    DisciplinedCall s (kalloc L s) ∧ DisciplinedCall s (kfree L pa s) ∧
    DisciplinedCall s (add_ref L pa s) ∧ DisciplinedCall s (dec_ref L pa s) ∧
    (pa < L.KERNBASE ∨ pa ≥ L.PHYSTOP →
      ∃ s', kfree L pa s = Result.fault (-1) s' ∧
        s'.events = s.events ++ [LockEvent.acquire Lock.ref_lock]) :=
  ⟨kalloc_disciplined L s, kfree_disciplined L s pa, add_ref_disciplined L s pa,
    dec_ref_disciplined L s pa, fun h => ⟨_, kfree_out_of_range L s pa h, rfl⟩⟩

theorem lock_discipline_witness :
    DisciplinedCall ownedA (kfree xv6 0x88000000 ownedA) ∧
    ∃ s', kfree xv6 0x88000000 ownedA = Result.fault (-1) s' ∧
      s'.events = ownedA.events ++ [LockEvent.acquire Lock.ref_lock] :=
  ⟨(lock_discipline xv6 ownedA 0x88000000).2.1,
    (lock_discipline xv6 ownedA 0x88000000).2.2.2.2 (Or.inr (by decide))⟩

/-! ## Behaviour outside the intended use -/

/-- C18: over-decrement wraps silently. On an address of `[KERNBASE, PHYSTOP)`
whose frame has count 0, `dec_ref` returns, the 32-bit count is `2^32 - 1`, the
value read as an `int` is `-1` (not 0), so the frame is not reclaimed: free list
and memory are unchanged, as is every other counter. A following `kfree` takes
the shared branch and only lowers the count to `2^32 - 2`. -/
theorem over_decrement_wraps (L : Layout) (hL : L.WF) (s : State) (pa : Nat)
    (h1 : L.KERNBASE ≤ pa) (h2 : pa < L.PHYSTOP)
    (hc : s.page_refcount ((pa - L.KERNBASE) / 4096) = 0) :
    ∃ s1 s2, dec_ref L pa s = Result.ok () s1 ∧
      s1.page_refcount ((pa - L.KERNBASE) / 4096) = 2 ^ 32 - 1 ∧
      toInt32 (s1.page_refcount ((pa - L.KERNBASE) / 4096)) = -1 ∧
      (∀ i, i ≠ (pa - L.KERNBASE) / 4096 → s1.page_refcount i = s.page_refcount i) ∧
      s1.freelist = s.freelist ∧ s1.mem = s.mem ∧
      kfree L pa s1 = Result.ok () s2 ∧
      s2.page_refcount ((pa - L.KERNBASE) / 4096) = 2 ^ 32 - 2 ∧
      (∀ i, i ≠ (pa - L.KERNBASE) / 4096 → s2.page_refcount i = s.page_refcount i) ∧
      s2.freelist = s.freelist ∧ s2.mem = s.mem := by
  have hc0 : countOf L s pa = 0 := hc
  have hw : u32dec (countOf L s pa) = 2 ^ 32 - 1 := by rw [hc0]; decide
  have e1 := dec_ref_more L hL s pa h1 h2 (by rw [hw]; decide)
  have hc1 : countOf L (decremented L s pa) pa = 2 ^ 32 - 1 := by
    rw [countOf_decremented, hw]
  have e2 := kfree_shared L hL (decremented L s pa) pa h1 h2 (by rw [hc1]; decide)
  refine ⟨_, _, e1, hc1, ?_, ?_, rfl, rfl, e2, ?_, ?_, rfl, rfl⟩
  · have h : (decremented L s pa).page_refcount ((pa - L.KERNBASE) / 4096) = 2 ^ 32 - 1 := hc1
    rw [h]
    decide
  · intro i hi
    simp [decremented, setCount, frameIndex, PGSIZE, hi]
  · show setCount _ (frameIndex L pa) (u32dec (countOf L (decremented L s pa) pa))
      ((pa - L.KERNBASE) / 4096) = 2 ^ 32 - 2
    rw [hc1]
    simp [setCount, frameIndex, PGSIZE]
    decide
  · intro i hi
    simp [decremented, setCount, frameIndex, PGSIZE, hi]

theorem over_decrement_wraps_witness :
    ∃ s1 s2, dec_ref xv6 frameB ownedA = Result.ok () s1 ∧
      s1.page_refcount ((frameB - xv6.KERNBASE) / 4096) = 2 ^ 32 - 1 ∧
      toInt32 (s1.page_refcount ((frameB - xv6.KERNBASE) / 4096)) = -1 ∧
      (∀ i, i ≠ (frameB - xv6.KERNBASE) / 4096 → s1.page_refcount i = ownedA.page_refcount i) ∧
      s1.freelist = ownedA.freelist ∧ s1.mem = ownedA.mem ∧
      kfree xv6 frameB s1 = Result.ok () s2 ∧
      s2.page_refcount ((frameB - xv6.KERNBASE) / 4096) = 2 ^ 32 - 2 ∧
      (∀ i, i ≠ (frameB - xv6.KERNBASE) / 4096 → s2.page_refcount i = ownedA.page_refcount i) ∧
      s2.freelist = ownedA.freelist ∧ s2.mem = ownedA.mem :=
  over_decrement_wraps xv6 (by decide) ownedA frameB (by decide) (by decide) (by decide)

/-- C20: a double release is not detected. After `kinit` on the xv6 layout (a
pool seeded with its frames), the sequence `kalloc` returning `F`, `kfree(F)`,
`kfree(F)` runs without halting, and afterwards two successive calls of
`kalloc` both return the same address `F`: one frame is handed out twice. -/
theorem double_release_undetected :
    ∃ s0 F s1 s2 s3 s4 s5, kinit xv6 (boot (fun _ => 0)) = Result.ok () s0 ∧
      kalloc xv6 s0 = Result.ok F s1 ∧ F ≠ 0 ∧
      kfree xv6 F s1 = Result.ok () s2 ∧ kfree xv6 F s2 = Result.ok () s3 ∧
      kalloc xv6 s3 = Result.ok F s4 ∧ kalloc xv6 s4 = Result.ok F s5 :=
  kinit_double_release xv6 (by decide) (fun _ => 0) (by decide)

end Kalloc
